import Mathlib

/-!
Verification development for the AutoCkt hardware elaboration and netlisting
engine.  Part 1 embeds `src/hdl21/sim/delay.py` (the delay-testbench builder)
over an explicit object heap, so that aliasing and mutation of `Signal`
objects are modelled faithfully.  Part 2 models the elaboration core
(generator memoizer, elaborator, connectivity validator, netlist emitter,
series/parallel generator) from the specification, since only its tests are
present in the repository sources.
-/

namespace AutoCkt

/-! ### Signals and the object heap

`Visibility`, `PortDir` and the `Signal` data model follow spec section 3
(name, positive bit-width, visibility INTERNAL/PORT, direction
NONE/INPUT/OUTPUT/INOUT); the classes themselves live in `hdl21/signal.py`,
which is not among the sources.  Python `Signal` objects are mutable and
aliased, so we model them as references (`Nat`) into a heap. -/

inductive Visibility where
  | INTERNAL
  | PORT
deriving DecidableEq

inductive PortDir where
  | NONE
  | INPUT
  | OUTPUT
  | INOUT
deriving DecidableEq

structure SigData where
  name : String
  width : Nat
  vis : Visibility
  direction : PortDir
deriving DecidableEq

/-- A heap of `Signal` objects: a store plus an allocation pointer.
Every live reference is below `next`. -/
structure Heap where
  data : Nat → SigData
  next : Nat

/-- Allocation: `copy(sig)` in Python produces a fresh object. -/
def Heap.alloc (h : Heap) (d : SigData) : Nat × Heap :=
  (h.next, ⟨fun r => if r = h.next then d else h.data r, h.next + 1⟩)

/-- In-place field assignment, as in `sig.vis = ...`. -/
def Heap.set (h : Heap) (r : Nat) (d : SigData) : Heap :=
  ⟨fun x => if x = r then d else h.data x, h.next⟩

/-! ### `delay.py` data types -/

inductive LogicState where
  | LOW
  | HIGH
deriving DecidableEq

inductive Transition where
  | RISING
  | FALLING
deriving DecidableEq

/-- Generic association-list lookup (Python `dict.get`, insertion order). -/
def alookup {κ β : Type} [DecidableEq κ] : List (κ × β) → κ → Option β
  | [], _ => none
  | (k, v) :: rest, key => if k = key then some v else alookup rest key

/-- The design under test, seen through its external interface: a name and
an ordered list of port-signal references. -/
structure Dut where
  name : String
  ports : List Nat
deriving DecidableEq

/-- `DelaySimParams` from `delay.py`.  `ParamVal` quantities (voltages,
times, capacitances) are modelled as integers: `delay` never inspects them,
it only copies them into the produced `Sim`. -/
structure DelaySimParams where
  dut : Dut
  primary_input : Nat
  other_inputs : List (String × LogicState)
  input_trans : Transition
  vlo : Int
  vhi : Int
  supplies : List (String × Int)
  grounds : List Nat
  load_caps : List (String × Int)
  default_load_cap : Int
  trf : Int
  tstop : Int
  tstep : Option Int
  pathsep : String

inductive InstKind where
  | dutInst
  | vpu (v1 v2 vdelay vperiod vrise vfall vwidth : Int)
  | vdc (dc : Int)
  | cap (c : Int)
deriving DecidableEq

structure InstRec where
  name : String
  kind : InstKind
  conns : List (String × Nat)
deriving DecidableEq

structure TBModule where
  name : String
  ports : List Nat
  signals : List Nat
  instances : List InstRec
deriving DecidableEq

structure TranRec where
  tstop : Int
  tstep : Option Int
  name : String
deriving DecidableEq

structure MeasRec where
  analysis : String
  name : String
  expr : String
deriving DecidableEq

structure SimModel where
  tb : TBModule
  analyses : List TranRec
  measures : List MeasRec
deriving DecidableEq

/-- The exception kinds `delay` can raise: `RuntimeError`, `ValueError`,
and `NameError` (`UnboundLocalError`) from the two raises whose f-strings
read the loop variable `inp` while it is still unbound: the primary-input
bus check at line 81 (always, since `inp` is first assigned at line 118)
and the output bus check at line 148 (when no input iteration ran). -/
inductive DelayErr where
  | runtimeError (msg : String)
  | valueError (msg : String)
  | nameError (msg : String)
deriving DecidableEq

/-- Builder state threaded through `delay`: the heap plus the testbench
module and `Sim` contents accumulated so far. -/
structure DelaySt where
  heap : Heap
  tbSignals : List Nat
  tbInsts : List InstRec
  dutConns : List (String × Nat)
  measures : List MeasRec

/-- `copy(sig)`: shallow-copy a signal object into a fresh reference. -/
def copySig (st : DelaySt) (src : Nat) : Nat × DelaySt :=
  let rh := st.heap.alloc (st.heap.data src)
  (rh.1, { st with heap := rh.2 })

/-- `_copy_to_internal(sig)`: copy, then set visibility INTERNAL and
direction NONE on the copy. -/
def copyToInternal (st : DelaySt) (src : Nat) : Nat × DelaySt :=
  let rst := copySig st src
  let d := rst.2.heap.data rst.1
  (rst.1, { rst.2 with heap := rst.2.heap.set rst.1 { d with vis := .INTERNAL, direction := .NONE } })

/-- The `for gndsig in p.grounds` loop: connect each ground to tb VSS. -/
def groundsLoop (vssRef : Nat) (gs : List Nat) (st : DelaySt) : DelaySt :=
  match gs with
  | [] => st
  | g :: rest =>
    groundsLoop vssRef rest
      { st with dutConns := st.dutConns ++ [((st.heap.data g).name, vssRef)] }

/-- `p.dut.get(vname)`: look a port signal up by name. -/
def findPort (st : DelaySt) (ports : List Nat) (nm : String) : Option Nat :=
  match ports with
  | [] => none
  | r :: rest => if (st.heap.data r).name = nm then some r else findPort st rest nm

/-- The `for vname, vval in p.supplies.items()` loop. -/
def suppliesLoop (dut : Dut) (vssRef : Nat) (ss : List (String × Int)) (st : DelaySt) :
    Option DelayErr × DelaySt :=
  match ss with
  | [] => (none, st)
  | (vname, vval) :: rest =>
    match findPort st dut.ports vname with
    | none =>
      (some (.runtimeError ("Invalid Supply " ++ vname ++ " in creating delay for " ++ dut.name)), st)
    | some sref =>
      let rst := copyToInternal st sref
      let nm := (rst.2.heap.data rst.1).name
      let st2 := { rst.2 with
        tbInsts := rst.2.tbInsts ++ [⟨"v" ++ nm, .vdc vval, [("p", rst.1), ("n", vssRef)]⟩],
        dutConns := rst.2.dutConns ++ [(nm, rst.1)] }
      suppliesLoop dut vssRef rest st2

/-- The `for inp in dut_inputs` loop (delay.py lines 118-141): skip the
primary input (structural equality), copy to internal, reject bus inputs,
add and connect, look up the logic state, and add a DC source. -/
def inputsLoop (p : DelaySimParams) (vssRef : Nat) (ins : List Nat) (st : DelaySt) :
    Option DelayErr × DelaySt :=
  match ins with
  | [] => (none, st)
  | iref :: rest =>
    if st.heap.data iref = st.heap.data p.primary_input then
      inputsLoop p vssRef rest st
    else
      let rst := copyToInternal st iref
      let d := rst.2.heap.data rst.1
      if d.width ≠ 1 then
        (some (.runtimeError ("Unsupported Delay sim for bus input " ++ d.name)), rst.2)
      else
        let st2 := { rst.2 with
          tbSignals := rst.2.tbSignals ++ [rst.1],
          dutConns := rst.2.dutConns ++ [(d.name, rst.1)] }
        match alookup p.other_inputs d.name with
        | none => (some (.valueError ("No LogicState defined for input " ++ d.name)), st2)
        | some state =>
          let vdcv := if state = LogicState.HIGH then p.vhi else p.vlo
          let st3 := { st2 with
            tbInsts := st2.tbInsts ++ [⟨"v" ++ d.name, .vdc vdcv, [("p", rst.1), ("n", vssRef)]⟩] }
          inputsLoop p vssRef rest st3

/-- The `for out in dut_outputs` loop (delay.py lines 145-162).  The bus
check's error message references the loop variable `inp` of the previous
loop; when no input iteration ever ran that variable is unbound and Python
raises `NameError` instead. -/
def outputsLoop (p : DelaySimParams) (vssRef : Nat) (tranName : String) (hasInputs : Bool)
    (outs : List Nat) (st : DelaySt) : Option DelayErr × DelaySt :=
  match outs with
  | [] => (none, st)
  | oref :: rest =>
    let rst := copyToInternal st oref
    let d := rst.2.heap.data rst.1
    if d.width ≠ 1 then
      if hasInputs then
        (some (.runtimeError "Unsupported Delay sim for bus output"), rst.2)
      else
        (some (.nameError "name inp is not defined"), rst.2)
    else
      let c := (alookup p.load_caps d.name).getD p.default_load_cap
      let st2 := { rst.2 with
        dutConns := rst.2.dutConns ++ [(d.name, rst.1)],
        tbInsts := rst.2.tbInsts ++ [⟨"c" ++ d.name, .cap c, [("p", rst.1), ("n", vssRef)]⟩],
        measures := rst.2.measures ++
          [⟨tranName, "tcross_" ++ d.name,
            "when V(xtop" ++ p.pathsep ++ d.name ++ ")={vdd/2} cross=1"⟩] }
      outputsLoop p vssRef tranName hasInputs rest st2

/-- `delay`, from the `dut_inputs` loop (line 117) onwards. -/
def delayTail2 (p : DelaySimParams) (vssRef : Nat) (tranName : String) (st6 : DelaySt) :
    Except DelayErr SimModel × Heap :=
  let dutInputs := p.dut.ports.filter
    (fun r => decide ((st6.heap.data r).direction = PortDir.INPUT))
  match inputsLoop p vssRef dutInputs st6 with
  | (some e, stE) => (.error e, stE.heap)
  | (none, st7) =>
    let dutOutputs := p.dut.ports.filter
      (fun r => decide ((st7.heap.data r).direction = PortDir.OUTPUT))
    match outputsLoop p vssRef tranName (!dutInputs.isEmpty) dutOutputs st7 with
    | (some e, stE) => (.error e, stE.heap)
    | (none, st8) =>
      let tb : TBModule :=
        ⟨p.dut.name ++ "Tb", [vssRef], st8.tbSignals,
          ⟨"dut", .dutInst, st8.dutConns⟩ :: st8.tbInsts⟩
      (.ok ⟨tb, [⟨p.tstop, p.tstep, tranName⟩], st8.measures⟩, st8.heap)

/-- `delay`, from the grounds loop (line 103) onwards. -/
def delayTail1 (p : DelaySimParams) (vssRef : Nat) (tranName : String) (st4 : DelaySt) :
    Except DelayErr SimModel × Heap :=
  let st5 := groundsLoop vssRef p.grounds st4
  match suppliesLoop p.dut vssRef p.supplies st5 with
  | (some e, stE) => (.error e, stE.heap)
  | (none, st6) => delayTail2 p vssRef tranName st6

/-- `delay(p)` from `src/hdl21/sim/delay.py`, over an explicit heap.
Returns the outcome (a `Sim`, or the exception raised) together with the
heap as left when `delay` finishes or the exception propagates. -/
def delay (p : DelaySimParams) (h : Heap) : Except DelayErr SimModel × Heap :=
  -- tb = Module(name=f"{p.dut.name}Tb"); tb.vss = Port(width=1)
  let vh := h.alloc ⟨"vss", 1, .PORT, .NONE⟩
  let vssRef := vh.1
  let st0 : DelaySt := ⟨vh.2, [], [], [], []⟩
  let tranName := "tran_delay_" ++ (vh.2.data p.primary_input).name
  -- sig = copy(p.primary_input); width check; make internal; add; connect
  -- The raise at line 81 formats f"... bus input {inp}", but `inp` is the
  -- later loop variable and is unbound here, so Python raises
  -- UnboundLocalError instead of the intended RuntimeError.
  let prst := copySig st0 p.primary_input
  let pr := prst.1
  let pd := prst.2.heap.data pr
  if pd.width ≠ 1 then
    (.error (.nameError "local variable inp referenced before assignment"), prst.2.heap)
  else
    let st2 := { prst.2 with
      heap := prst.2.heap.set pr { pd with vis := .INTERNAL, direction := .NONE },
      tbSignals := prst.2.tbSignals ++ [pr],
      dutConns := prst.2.dutConns ++ [(pd.name, pr)] }
    -- pulse source on the primary input
    let v12 := if p.input_trans = Transition.RISING then (p.vlo, p.vhi) else (p.vhi, p.vlo)
    let st3 : DelaySt := { st2 with
      tbInsts := st2.tbInsts ++
        [⟨"v" ++ (st2.heap.data p.primary_input).name,
          .vpu v12.1 v12.2 0 2 p.trf p.trf 1, [("p", pr), ("n", vssRef)]⟩] }
    -- measurement of the initial primary-input crossing
    let crossStr := if p.input_trans = Transition.RISING then "rise" else "fall"
    let st4 : DelaySt := { st3 with
      measures := st3.measures ++
        [⟨tranName, "tcross_primary_input",
          "when V(xtop" ++ p.pathsep ++ (st3.heap.data p.primary_input).name
            ++ ")={vdd/2} " ++ crossStr ++ "=1"⟩] }
    delayTail1 p vssRef tranName st4

/-! ### Heap framing: `delay` writes only to freshly allocated objects -/

/-- `Frames h h'`: `h'` extends `h` without touching any object live in `h`. -/
def Frames (h h' : Heap) : Prop :=
  h.next ≤ h'.next ∧ ∀ r, r < h.next → h'.data r = h.data r

theorem frames_refl (h : Heap) : Frames h h :=
  ⟨Nat.le_refl _, fun _ _ => rfl⟩

theorem frames_trans {a b c : Heap} (h1 : Frames a b) (h2 : Frames b c) : Frames a c :=
  ⟨Nat.le_trans h1.1 h2.1,
    fun r hr => (h2.2 r (Nat.lt_of_lt_of_le hr h1.1)).trans (h1.2 r hr)⟩

theorem alloc_frames (h : Heap) (d : SigData) : Frames h (h.alloc d).2 := by
  refine ⟨Nat.le_succ _, fun r hr => ?_⟩
  simp only [Heap.alloc]
  exact if_neg (Nat.ne_of_lt hr)

theorem frames_set {h h' : Heap} (hf : Frames h h') {r : Nat} (hr : h.next ≤ r) (d : SigData) :
    Frames h (h'.set r d) := by
  refine ⟨hf.1, fun x hx => ?_⟩
  simp only [Heap.set]
  rw [if_neg (Nat.ne_of_lt (Nat.lt_of_lt_of_le hx hr))]
  exact hf.2 x hx

theorem copySig_frames (st : DelaySt) (src : Nat) :
    Frames st.heap (copySig st src).2.heap :=
  alloc_frames _ _

theorem copyToInternal_frames (st : DelaySt) (src : Nat) :
    Frames st.heap (copyToInternal st src).2.heap := by
  have h1 := copySig_frames st src
  have h2 : st.heap.next ≤ (copySig st src).1 := Nat.le_refl _
  exact frames_set h1 h2 _

theorem copyToInternal_heap_next (st : DelaySt) (src : Nat) :
    (copyToInternal st src).2.heap.next = st.heap.next + 1 := rfl

/-- The data stored at the reference returned by `copyToInternal`. -/
theorem copyToInternal_data (st : DelaySt) (src : Nat) :
    (copyToInternal st src).2.heap.data (copyToInternal st src).1 =
      { st.heap.data src with vis := .INTERNAL, direction := .NONE } := by
  simp only [copyToInternal, copySig, Heap.alloc, Heap.set, if_pos]

/-- The data stored at the reference returned by `copySig`. -/
theorem copySig_data (st : DelaySt) (src : Nat) :
    (copySig st src).2.heap.data (copySig st src).1 = st.heap.data src := by
  simp only [copySig, Heap.alloc, if_pos]

theorem copyToInternal_tb (st : DelaySt) (src : Nat) :
    (copyToInternal st src).2.tbSignals = st.tbSignals ∧
    (copyToInternal st src).2.tbInsts = st.tbInsts ∧
    (copyToInternal st src).2.dutConns = st.dutConns ∧
    (copyToInternal st src).2.measures = st.measures := by
  exact ⟨rfl, rfl, rfl, rfl⟩

theorem groundsLoop_heap (vssRef : Nat) (gs : List Nat) (st : DelaySt) :
    (groundsLoop vssRef gs st).heap = st.heap := by
  induction gs generalizing st with
  | nil => rfl
  | cons g rest ih => simpa only [groundsLoop] using ih _

theorem suppliesLoop_frames (dut : Dut) (vssRef : Nat) (ss : List (String × Int)) (st : DelaySt) :
    Frames st.heap (suppliesLoop dut vssRef ss st).2.heap := by
  induction ss generalizing st with
  | nil => exact frames_refl _
  | cons sv rest ih =>
    simp only [suppliesLoop]
    split
    · exact frames_refl _
    · refine frames_trans ?_ (ih _)
      exact copyToInternal_frames st _

theorem inputsLoop_frames (p : DelaySimParams) (vssRef : Nat) (ins : List Nat) (st : DelaySt) :
    Frames st.heap (inputsLoop p vssRef ins st).2.heap := by
  induction ins generalizing st with
  | nil => exact frames_refl _
  | cons iref rest ih =>
    simp only [inputsLoop]
    split
    · exact ih _
    · split
      · exact copyToInternal_frames st _
      · split
        · exact copyToInternal_frames st _
        · refine frames_trans ?_ (ih _)
          exact copyToInternal_frames st _

theorem outputsLoop_frames (p : DelaySimParams) (vssRef : Nat) (tranName : String)
    (hasInputs : Bool) (outs : List Nat) (st : DelaySt) :
    Frames st.heap (outputsLoop p vssRef tranName hasInputs outs st).2.heap := by
  induction outs generalizing st with
  | nil => exact frames_refl _
  | cons oref rest ih =>
    simp only [outputsLoop]
    split
    · split <;> exact copyToInternal_frames st _
    · refine frames_trans ?_ (ih _)
      exact copyToInternal_frames st _

theorem delayTail2_frames (p : DelaySimParams) (vssRef : Nat) (tranName : String) (st6 : DelaySt) :
    Frames st6.heap (delayTail2 p vssRef tranName st6).2 := by
  simp only [delayTail2]
  split
  next e stE heq =>
    have h1 := inputsLoop_frames p vssRef
      (p.dut.ports.filter (fun r => decide ((st6.heap.data r).direction = PortDir.INPUT))) st6
    rw [heq] at h1
    exact h1
  next st7 heq =>
    have h1 := inputsLoop_frames p vssRef
      (p.dut.ports.filter (fun r => decide ((st6.heap.data r).direction = PortDir.INPUT))) st6
    rw [heq] at h1
    split
    next e stE heq2 =>
      have h2 := outputsLoop_frames p vssRef tranName
        (!(p.dut.ports.filter (fun r => decide ((st6.heap.data r).direction = PortDir.INPUT))).isEmpty)
        (p.dut.ports.filter (fun r => decide ((st7.heap.data r).direction = PortDir.OUTPUT))) st7
      rw [heq2] at h2
      exact frames_trans h1 h2
    next st8 heq2 =>
      have h2 := outputsLoop_frames p vssRef tranName
        (!(p.dut.ports.filter (fun r => decide ((st6.heap.data r).direction = PortDir.INPUT))).isEmpty)
        (p.dut.ports.filter (fun r => decide ((st7.heap.data r).direction = PortDir.OUTPUT))) st7
      rw [heq2] at h2
      exact frames_trans h1 h2

theorem delayTail1_frames (p : DelaySimParams) (vssRef : Nat) (tranName : String) (st4 : DelaySt) :
    Frames st4.heap (delayTail1 p vssRef tranName st4).2 := by
  simp only [delayTail1]
  split
  next e stE heq =>
    have h1 := suppliesLoop_frames p.dut vssRef p.supplies (groundsLoop vssRef p.grounds st4)
    rw [heq, groundsLoop_heap] at h1
    exact h1
  next st6 heq =>
    have h1 := suppliesLoop_frames p.dut vssRef p.supplies (groundsLoop vssRef p.grounds st4)
    rw [heq, groundsLoop_heap] at h1
    exact frames_trans h1 (delayTail2_frames p vssRef tranName st6)

theorem delay_frames (p : DelaySimParams) (h : Heap) : Frames h (delay p h).2 := by
  simp only [delay]
  split
  · refine frames_trans ?_ (copySig_frames _ _)
    exact alloc_frames h _
  · refine frames_trans ?_ (delayTail1_frames p _ _ _)
    refine frames_set ?_ (Nat.le_succ _) _
    refine frames_trans ?_ (copySig_frames _ _)
    exact alloc_frames h _

/-! ### Concrete designs under test, used as witnesses -/

def sigDefault : SigData := ⟨"", 1, .INTERNAL, .NONE⟩

def sig_in0 : SigData := ⟨"in0", 1, .PORT, .INPUT⟩

def sig_in1 : SigData := ⟨"in1", 1, .PORT, .INPUT⟩

def sig_in2 : SigData := ⟨"in2", 2, .PORT, .INPUT⟩

def sig_out : SigData := ⟨"out", 1, .PORT, .OUTPUT⟩

/-- A heap holding a 4-port DUT: inputs in0, in1, a two-bit bus input in2,
and an output. -/
def heap0 : Heap := ⟨fun r => [sig_in0, sig_in1, sig_in2, sig_out].getD r sigDefault, 4⟩

def dut0 : Dut := ⟨"Dut", [0, 1, 2, 3]⟩

/-- Delay-sim parameters on `dut0` with primary input in0 and no logic
states given for the other inputs. -/
def params0 : DelaySimParams :=
  ⟨dut0, 0, [], .RISING, 0, 1, [], [], [], 1, 1, 1, some 1, ":"⟩

/-- As `params0`, but with a logic state for in1, so that the two-bit bus
input in2 is the first offender reached. -/
def params2 : DelaySimParams :=
  { params0 with other_inputs := [("in1", .HIGH)] }

/-- A heap holding a well-formed 3-port DUT (all widths 1). -/
def heap1 : Heap := ⟨fun r => [sig_in0, sig_in1, sig_out].getD r sigDefault, 3⟩

def dut1 : Dut := ⟨"Dut", [0, 1, 2]⟩

def params1 : DelaySimParams :=
  ⟨dut1, 0, [("in1", .HIGH)], .RISING, 0, 1, [], [], [], 1, 1, 1, some 1, ":"⟩

/-- C10: `delay` never mutates the design under test: every port `Signal`
of `p.dut` is copied (`_copy_to_internal` or `copy`) before its visibility
is set to INTERNAL and its direction to NONE, so every DUT port keeps its
original visibility and direction. -/
theorem delay_preserves_dut (p : DelaySimParams) (h : Heap)
    (hports : ∀ r ∈ p.dut.ports, r < h.next) :
    ∀ r ∈ p.dut.ports,
      ((delay p h).2.data r).vis = (h.data r).vis ∧
      ((delay p h).2.data r).direction = (h.data r).direction := by
  intro r hr
  rw [(delay_frames p h).2 r (hports r hr)]
  exact ⟨rfl, rfl⟩

theorem delay_preserves_dut_witness :
    (∀ r ∈ params1.dut.ports, r < heap1.next) ∧
    (((delay params1 heap1).2.data 0).vis = (heap1.data 0).vis ∧
      ((delay params1 heap1).2.data 0).direction = (heap1.data 0).direction) :=
  ⟨by decide, delay_preserves_dut params1 heap1 (by decide) 0 (by decide)⟩

/-! ### Error behaviour of the input loop (claim C9) -/

theorem suppliesLoop_err_runtime (dut : Dut) (vssRef : Nat) (ss : List (String × Int)) :
    ∀ st e, (suppliesLoop dut vssRef ss st).1 = some e → ∃ msg, e = .runtimeError msg := by
  induction ss with
  | nil =>
    intro st e he
    exact absurd he (by simp [suppliesLoop])
  | cons sv rest ih =>
    intro st e he
    rw [suppliesLoop] at he
    revert he
    split
    · intro he
      exact ⟨_, (Option.some.inj he).symm⟩
    · intro he
      exact ih _ e he

theorem inputsLoop_raises (p : DelaySimParams) (vssRef : Nat) (h : Heap)
    (hp : p.primary_input < h.next) :
    ∀ ins st, Frames h st.heap →
      (∃ x, x ∈ ins ∧ x < h.next ∧ (h.data x).width ≠ 1 ∧ h.data x ≠ h.data p.primary_input) →
      (inputsLoop p vssRef ins st).1.isSome = true := by
  intro ins
  induction ins with
  | nil =>
    intro st _ hx
    rcases hx with ⟨x, hmem, _⟩
    exact absurd hmem (List.not_mem_nil x)
  | cons iref rest ih =>
    intro st hfr hx
    simp only [inputsLoop]
    split
    next hskip =>
      refine ih st hfr ?_
      rcases hx with ⟨x, hmem, hlt, hwid, hne⟩
      rcases List.mem_cons.mp hmem with hx1 | hx2
      · subst hx1
        exact absurd ((hfr.2 x hlt).symm.trans (hskip.trans (hfr.2 _ hp))) hne
      · exact ⟨x, hx2, hlt, hwid, hne⟩
    next hskip =>
      split
      next hw => rfl
      next hw =>
        split
        · rfl
        · refine ih _ (frames_trans hfr (copyToInternal_frames st iref)) ?_
          rcases hx with ⟨x, hmem, hlt, hwid, hne⟩
          rcases List.mem_cons.mp hmem with hx1 | hx2
          · subst hx1
            refine absurd ?_ hwid
            have h1 : ((copyToInternal st x).2.heap.data (copyToInternal st x).1).width
                = (st.heap.data x).width := by
              rw [copyToInternal_data]
            rw [← hfr.2 x hlt, ← h1]
            exact not_not.mp hw
          · exact ⟨x, hx2, hlt, hwid, hne⟩

theorem inputsLoop_err_kind (p : DelaySimParams) (vssRef : Nat) (h : Heap)
    (hp : p.primary_input < h.next) :
    ∀ ins st, Frames h st.heap →
      (∀ x ∈ ins, x < h.next) →
      (∀ x ∈ ins, h.data x ≠ h.data p.primary_input → (h.data x).width = 1 →
        (alookup p.other_inputs (h.data x).name).isSome = true) →
      ∀ e, (inputsLoop p vssRef ins st).1 = some e → ∃ msg, e = .runtimeError msg := by
  intro ins
  induction ins with
  | nil =>
    intro st _ _ _ e he
    exact absurd he (by simp [inputsLoop])
  | cons iref rest ih =>
    intro st hfr hbound hcov e he
    simp only [inputsLoop] at he
    revert he
    split
    next hskip =>
      intro he
      exact ih st hfr (fun x hx => hbound x (List.mem_cons_of_mem _ hx))
        (fun x hx => hcov x (List.mem_cons_of_mem _ hx)) e he
    next hskip =>
      split
      next hw =>
        intro he
        exact ⟨_, (Option.some.inj he).symm⟩
      next hw =>
        have hblt : iref < h.next := hbound iref (List.mem_cons_self _ _)
        split
        next heqa =>
          intro he
          exfalso
          have hne : h.data iref ≠ h.data p.primary_input := by
            rw [← hfr.2 iref hblt, ← hfr.2 p.primary_input hp]
            exact hskip
          have hw1 : (h.data iref).width = 1 := by
            have h1 : ((copyToInternal st iref).2.heap.data (copyToInternal st iref).1).width
                = (st.heap.data iref).width := by
              rw [copyToInternal_data]
            rw [← hfr.2 iref hblt, ← h1]
            exact not_not.mp hw
          have hsome := hcov iref (List.mem_cons_self _ _) hne hw1
          have h1 : ((copyToInternal st iref).2.heap.data (copyToInternal st iref).1).name
              = (h.data iref).name := by
            rw [copyToInternal_data, hfr.2 iref hblt]
          rw [← h1, heqa] at hsome
          exact absurd hsome (by simp)
        next state heqa =>
          intro he
          refine ih _ ?_ (fun x hx => hbound x (List.mem_cons_of_mem _ hx))
            (fun x hx => hcov x (List.mem_cons_of_mem _ hx)) e he
          exact frames_trans hfr (copyToInternal_frames st iref)

theorem delayTail2_raises (p : DelaySimParams) (vssRef : Nat) (tranName : String) (h : Heap)
    (st6 : DelaySt) (hfr : Frames h st6.heap)
    (hports : ∀ r ∈ p.dut.ports, r < h.next) (hp : p.primary_input < h.next)
    (hbus : ∃ r, r ∈ p.dut.ports ∧ (h.data r).direction = PortDir.INPUT ∧
      (h.data r).width ≠ 1 ∧ h.data r ≠ h.data p.primary_input) :
    (∃ e, (delayTail2 p vssRef tranName st6).1 = .error e) ∧
    ((∀ r ∈ p.dut.ports, (h.data r).direction = PortDir.INPUT →
        h.data r ≠ h.data p.primary_input → (h.data r).width = 1 →
        (alookup p.other_inputs (h.data r).name).isSome = true) →
      ∃ msg, (delayTail2 p vssRef tranName st6).1 = .error (.runtimeError msg)) := by
  simp only [delayTail2]
  have hmemd : ∀ r ∈ p.dut.ports, st6.heap.data r = h.data r :=
    fun r hr => hfr.2 r (hports r hr)
  have hsub : ∀ x,
      x ∈ p.dut.ports.filter (fun r => decide ((st6.heap.data r).direction = PortDir.INPUT)) →
      x ∈ p.dut.ports :=
    fun x hx => (List.mem_filter.mp hx).1
  rcases hbus with ⟨x, hxm, hxdir, hxw, hxne⟩
  have hxin : x ∈ p.dut.ports.filter
      (fun r => decide ((st6.heap.data r).direction = PortDir.INPUT)) := by
    refine List.mem_filter.mpr ⟨hxm, ?_⟩
    rw [hmemd x hxm, hxdir]
    exact rfl
  have hrai := inputsLoop_raises p vssRef h hp
    (p.dut.ports.filter (fun r => decide ((st6.heap.data r).direction = PortDir.INPUT))) st6
    hfr ⟨x, hxin, hports x hxm, hxw, hxne⟩
  constructor
  · split
    next e stE heq => exact ⟨e, rfl⟩
    next st7 heq =>
      exfalso
      rw [heq] at hrai
      exact absurd hrai (by simp)
  · intro hcov
    split
    next e stE heq =>
      have hfst : (inputsLoop p vssRef
          (p.dut.ports.filter (fun r => decide ((st6.heap.data r).direction = PortDir.INPUT)))
          st6).1 = some e := by
        rw [heq]
      have hk := inputsLoop_err_kind p vssRef h hp
        (p.dut.ports.filter (fun r => decide ((st6.heap.data r).direction = PortDir.INPUT))) st6
        hfr (fun y hy => hports y (hsub y hy))
        (fun y hy => hcov y (hsub y hy) (by
          have := (List.mem_filter.mp hy).2
          rw [hmemd y (hsub y hy)] at this
          exact of_decide_eq_true this))
        e hfst
      rcases hk with ⟨msg, hmsg⟩
      exact ⟨msg, by rw [hmsg]⟩
    next st7 heq =>
      exfalso
      rw [heq] at hrai
      exact absurd hrai (by simp)

theorem delayTail1_raises (p : DelaySimParams) (vssRef : Nat) (tranName : String) (h : Heap)
    (st4 : DelaySt) (hfr : Frames h st4.heap)
    (hports : ∀ r ∈ p.dut.ports, r < h.next) (hp : p.primary_input < h.next)
    (hbus : ∃ r, r ∈ p.dut.ports ∧ (h.data r).direction = PortDir.INPUT ∧
      (h.data r).width ≠ 1 ∧ h.data r ≠ h.data p.primary_input) :
    (∃ e, (delayTail1 p vssRef tranName st4).1 = .error e) ∧
    ((∀ r ∈ p.dut.ports, (h.data r).direction = PortDir.INPUT →
        h.data r ≠ h.data p.primary_input → (h.data r).width = 1 →
        (alookup p.other_inputs (h.data r).name).isSome = true) →
      ∃ msg, (delayTail1 p vssRef tranName st4).1 = .error (.runtimeError msg)) := by
  simp only [delayTail1]
  split
  next e stE heq =>
    constructor
    · exact ⟨e, rfl⟩
    · intro _
      have hfst : (suppliesLoop p.dut vssRef p.supplies (groundsLoop vssRef p.grounds st4)).1
          = some e := by
        rw [heq]
      rcases suppliesLoop_err_runtime p.dut vssRef p.supplies _ e hfst with ⟨msg, hmsg⟩
      exact ⟨msg, by rw [hmsg]⟩
  next st6 heq =>
    have hfr6 : Frames h st6.heap := by
      have h1 := suppliesLoop_frames p.dut vssRef p.supplies (groundsLoop vssRef p.grounds st4)
      rw [heq, groundsLoop_heap] at h1
      exact frames_trans hfr h1
    exact delayTail2_raises p vssRef tranName h st6 hfr6 hports hp hbus

/-- C9 (amended): if some INPUT-direction port of `p.dut` other than the
primary input has bit-width different from 1, `delay(p)` never returns a
`Sim`: it raises an exception.  When additionally the primary input itself
has width 1 and every width-1 non-primary INPUT port has a `LogicState`
entry in `p.other_inputs`, that exception is a `RuntimeError`; otherwise a
`NameError` (the `UnboundLocalError` from the unbound `inp` in line 81's
message for a bus primary input) or a `ValueError` (a width-1 input with
no `LogicState`, line 132) is raised first. -/
theorem delay_bus_input_no_sim (p : DelaySimParams) (h : Heap)
    (hports : ∀ r ∈ p.dut.ports, r < h.next) (hp : p.primary_input < h.next)
    (hbus : ∃ r, r ∈ p.dut.ports ∧ (h.data r).direction = PortDir.INPUT ∧
      (h.data r).width ≠ 1 ∧ h.data r ≠ h.data p.primary_input) :
    (∃ e, (delay p h).1 = .error e) ∧
    ((h.data p.primary_input).width = 1 →
      (∀ r ∈ p.dut.ports, (h.data r).direction = PortDir.INPUT →
        h.data r ≠ h.data p.primary_input → (h.data r).width = 1 →
        (alookup p.other_inputs (h.data r).name).isSome = true) →
      ∃ msg, (delay p h).1 = .error (.runtimeError msg)) := by
  simp only [delay]
  split
  next hc =>
    refine ⟨⟨_, rfl⟩, fun hpw _ => ?_⟩
    exfalso
    apply hc
    rw [copySig_data]
    rw [(alloc_frames h _).2 p.primary_input hp]
    exact hpw
  next hc =>
    constructor
    · refine (delayTail1_raises p _ _ h _ ?_ hports hp hbus).1
      refine frames_set ?_ (Nat.le_succ _) _
      refine frames_trans ?_ (copySig_frames _ _)
      exact alloc_frames h _
    · intro _ hcov
      refine (delayTail1_raises p _ _ h _ ?_ hports hp hbus).2 hcov
      refine frames_set ?_ (Nat.le_succ _) _
      refine frames_trans ?_ (copySig_frames _ _)
      exact alloc_frames h _

theorem delay_bus_input_no_sim_witness :
    (∃ e, (delay params2 heap0).1 = .error e) ∧
    ((heap0.data params2.primary_input).width = 1 →
      (∀ r ∈ params2.dut.ports, (heap0.data r).direction = PortDir.INPUT →
        heap0.data r ≠ heap0.data params2.primary_input → (heap0.data r).width = 1 →
        (alookup params2.other_inputs (heap0.data r).name).isSome = true) →
      ∃ msg, (delay params2 heap0).1 = .error (.runtimeError msg)) :=
  delay_bus_input_no_sim params2 heap0 (by decide) (by decide) ⟨2, by decide⟩

/-- C9 as stated is false: on `params0`, the two-bit bus input `in2` is a
non-primary INPUT port, yet `delay` raises `ValueError` (no `LogicState`
for the earlier width-1 input `in1`), not `RuntimeError`. -/
theorem delay_bus_runtime_cex :
    (∃ r, r ∈ params0.dut.ports ∧ (heap0.data r).direction = PortDir.INPUT ∧
      (heap0.data r).width ≠ 1 ∧ heap0.data r ≠ heap0.data params0.primary_input) ∧
    ∀ msg, (delay params0 heap0).1 ≠ .error (.runtimeError msg) := by
  constructor
  · exact ⟨2, by decide⟩
  · intro msg hmsg
    have hval : (delay params0 heap0).1
        = .error (.valueError "No LogicState defined for input in1") := by rfl
    rw [hval] at hmsg
    injection hmsg with h2
    exact DelayErr.noConfusion h2

/-! ### Part 2: the elaboration core

The elaboration pipeline itself (`hdl21/module.py`, `generator.py`,
`elab.py`, the netlisters and the built-in generators) is not among the
source files; only its tests are.  The definitions below are therefore
modelled from the specification (sections 3, 4 and 6) and settled against
that model. -/

/-- Modelled from the spec: a port of a Module or Primitive (spec section 3
`Signal` as it appears in an interface: name, bit-width, direction).  The
entity classes live in `hdl21/module.py` and `hdl21/primitives.py`, which
are not among the sources. -/
structure PortDecl where
  name : String
  width : Nat
  dir : PortDir
deriving DecidableEq

/-- Modelled from the spec: an instantiation target is another Module, a
PrimitiveCall (primitive kind bound to a parameter value) or a
GeneratorCall (generator bound to a parameter value).  Modules are
identified by index into the design's module list; parameter-record values
are identified by their (structural) value, here a numeric code. -/
inductive Target where
  | mod (id : Nat)
  | prim (kind : Nat) (params : Nat)
  | gen (g : Nat) (params : Nat)
deriving DecidableEq

def Target.isGen : Target → Bool
  | .gen _ _ => true
  | _ => false

/-- Modelled from the spec: an Instance (spec section 3): a named placement
of a target, with a mapping from target port name to a signal name of the
enclosing Module. -/
structure InstDecl where
  name : String
  target : Target
  conns : List (String × String)
deriving DecidableEq

/-- Modelled from the spec: a Module (spec section 3): ordered ports,
ordered internal signals (name and width), ordered instances. -/
structure ModuleDef where
  name : String
  ports : List PortDecl
  signals : List (String × Nat)
  instances : List InstDecl
deriving DecidableEq

def emptyModule : ModuleDef := ⟨"", [], [], []⟩

def getM (env : List ModuleDef) (i : Nat) : ModuleDef := env.getD i emptyModule

/-! ### Generator registry and memoizer (spec section 4.1)

Modelled from the spec: `expand(generator_id, params)` returns the Module
produced by the generator's build function, invoking it exactly once per
distinct `(generator_id, params)` key and caching the result by reference.
Reference identity is modelled by an arena of built Modules: `expand`
returns an arena index, and two calls return the identical Module object
exactly when they return the same index.  `built` logs every invocation of
a build function. -/

structure MemoState (G P : Type) where
  cache : List ((G × P) × Nat)
  arena : List ModuleDef
  built : List (G × P)

def initMemo {G P : Type} : MemoState G P := ⟨[], [], []⟩

def expand {G P : Type} [DecidableEq G] [DecidableEq P] (build : G → P → ModuleDef)
    (g : G) (p : P) (s : MemoState G P) : Nat × MemoState G P :=
  match alookup s.cache (g, p) with
  | some r => (r, s)
  | none =>
    (s.arena.length,
      ⟨((g, p), s.arena.length) :: s.cache, s.arena ++ [build g p], (g, p) :: s.built⟩)

/-- A whole elaboration run: a sequence of `expand` requests against one
shared memoizer state. -/
def runExpand {G P : Type} [DecidableEq G] [DecidableEq P] (build : G → P → ModuleDef) :
    List (G × P) → MemoState G P → List Nat × MemoState G P
  | [], s => ([], s)
  | k :: ks, s =>
    let rs := expand build k.1 k.2 s
    let rest := runExpand build ks rs.2
    (rs.1 :: rest.1, rest.2)

def countK {G P : Type} [DecidableEq G] [DecidableEq P] : List (G × P) → (G × P) → Nat
  | [], _ => 0
  | x :: xs, k => (if x = k then 1 else 0) + countK xs k

theorem expand_cached {G P : Type} [DecidableEq G] [DecidableEq P]
    (build : G → P → ModuleDef) (g : G) (p : P) (s : MemoState G P) :
    alookup (expand build g p s).2.cache (g, p) = some (expand build g p s).1 := by
  unfold expand
  cases h : alookup s.cache (g, p) with
  | some r => simpa using h
  | none => simp [alookup]

theorem expand_mono {G P : Type} [DecidableEq G] [DecidableEq P]
    (build : G → P → ModuleDef) (g : G) (p : P) (s : MemoState G P)
    (k : G × P) (r : Nat) (hk : alookup s.cache k = some r) :
    alookup (expand build g p s).2.cache k = some r := by
  unfold expand
  cases h : alookup s.cache (g, p) with
  | some r2 => simpa using hk
  | none =>
    simp only [alookup]
    rw [if_neg]
    · exact hk
    · intro heq
      rw [heq] at h
      rw [h] at hk
      exact Option.noConfusion hk

theorem runExpand_mono {G P : Type} [DecidableEq G] [DecidableEq P]
    (build : G → P → ModuleDef) (ks : List (G × P)) (s : MemoState G P)
    (k : G × P) (r : Nat) (hk : alookup s.cache k = some r) :
    alookup (runExpand build ks s).2.cache k = some r := by
  induction ks generalizing s with
  | nil => exact hk
  | cons k2 ks2 ih =>
    simp only [runExpand]
    exact ih _ (expand_mono build k2.1 k2.2 s k r hk)

theorem runExpand_result {G P : Type} [DecidableEq G] [DecidableEq P]
    (build : G → P → ModuleDef) (ks : List (G × P)) (s : MemoState G P)
    (i : Nat) (hi : i < ks.length) :
    alookup (runExpand build ks s).2.cache (ks.get ⟨i, hi⟩)
      = some ((runExpand build ks s).1.getD i 0) := by
  induction ks generalizing s i with
  | nil => exact absurd hi (Nat.not_lt_zero i)
  | cons k ks2 ih =>
    cases i with
    | zero =>
      simp only [runExpand, List.get, List.getD, List.getElem?_cons_zero, Option.getD_some]
      exact runExpand_mono build ks2 _ _ _ (expand_cached build k.1 k.2 s)
    | succ j =>
      simp only [runExpand, List.get, List.getD, List.getElem?_cons_succ]
      exact ih _ j (Nat.lt_of_succ_lt_succ hi)

theorem expand_inv {G P : Type} [DecidableEq G] [DecidableEq P]
    (build : G → P → ModuleDef) (g : G) (p : P) (s : MemoState G P)
    (hinv : ∀ k, countK s.built k = if (alookup s.cache k).isSome then 1 else 0) :
    ∀ k, countK (expand build g p s).2.built k
      = if (alookup (expand build g p s).2.cache k).isSome then 1 else 0 := by
  intro k
  unfold expand
  cases h : alookup s.cache (g, p) with
  | some r => simpa using hinv k
  | none =>
    simp only [countK, alookup]
    by_cases hk : (g, p) = k
    · subst hk
      have h0 : countK s.built (g, p) = 0 := by
        rw [hinv (g, p), h]
        rfl
      simp [h0]
    · simp only [if_neg hk, Nat.zero_add]
      exact hinv k

theorem runExpand_inv {G P : Type} [DecidableEq G] [DecidableEq P]
    (build : G → P → ModuleDef) (ks : List (G × P)) (s : MemoState G P)
    (hinv : ∀ k, countK s.built k = if (alookup s.cache k).isSome then 1 else 0) :
    ∀ k, countK (runExpand build ks s).2.built k
      = if (alookup (runExpand build ks s).2.cache k).isSome then 1 else 0 := by
  induction ks generalizing s with
  | nil => exact hinv
  | cons k2 ks2 ih =>
    simp only [runExpand]
    exact ih _ (expand_inv build k2.1 k2.2 s hinv)

theorem mem_calls_hit {G P : Type} [DecidableEq G] [DecidableEq P]
    (build : G → P → ModuleDef) (ks : List (G × P)) (s : MemoState G P)
    (k : G × P) (hm : k ∈ ks) :
    ((alookup (runExpand build ks s).2.cache k).isSome : Bool) = true := by
  induction ks generalizing s with
  | nil => exact absurd hm (List.not_mem_nil k)
  | cons k2 ks2 ih =>
    rcases List.mem_cons.mp hm with h1 | h2
    · subst h1
      simp only [runExpand]
      rw [runExpand_mono build ks2 _ _ _ (expand_cached build k.1 k.2 s)]
      rfl
    · simp only [runExpand]
      exact ih _ h2

/-- C1: for structurally equal parameter values `p1 = p2`, two `expand`
requests `(g, p1)` and `(g, p2)` anywhere in one run return the identical
cached Module (the same arena reference), and the generator's build
function runs exactly once for that key over the whole run. -/
theorem generator_memoized {G P : Type} [DecidableEq G] [DecidableEq P]
    (build : G → P → ModuleDef) (calls : List (G × P)) (g : G) (p1 p2 : P)
    (hp : p1 = p2) (i j : Nat) (hi : i < calls.length) (hj : j < calls.length)
    (hci : calls.get ⟨i, hi⟩ = (g, p1)) (hcj : calls.get ⟨j, hj⟩ = (g, p2)) :
    (runExpand build calls initMemo).1.getD i 0 = (runExpand build calls initMemo).1.getD j 0 ∧
    countK (runExpand build calls initMemo).2.built (g, p1) = 1 := by
  subst hp
  constructor
  · have h1 := runExpand_result build calls initMemo i hi
    have h2 := runExpand_result build calls initMemo j hj
    rw [hci] at h1
    rw [hcj] at h2
    exact Option.some.inj (h1.symm.trans h2)
  · have hmem : (g, p1) ∈ calls := hci ▸ List.get_mem calls i hi
    have hhit := mem_calls_hit build calls initMemo (g, p1) hmem
    have hinv := runExpand_inv build calls initMemo (fun k => by simp [initMemo, countK, alookup]) (g, p1)
    rw [hinv]
    simp [hhit]

theorem generator_memoized_witness :
    (runExpand (fun _ _ => emptyModule) [((0 : Nat), (5 : Nat)), (0, 5)] initMemo).1.getD 0 0
      = (runExpand (fun _ _ => emptyModule) [((0 : Nat), (5 : Nat)), (0, 5)] initMemo).1.getD 1 0 ∧
    countK (runExpand (fun _ _ => emptyModule) [((0 : Nat), (5 : Nat)), (0, 5)] initMemo).2.built (0, 5) = 1 :=
  generator_memoized (fun _ _ => emptyModule) [((0 : Nat), (5 : Nat)), (0, 5)] 0 5 5 rfl
    0 1 (by decide) (by decide) rfl rfl

/-! ### Elaborator (spec section 4.2)

Modelled from the spec: a depth-first walk of the instantiation graph that
tracks the set of Modules currently being expanded on the active path and
fails with a cycle error naming the participating modules when a Module is
revisited; on success every GeneratorCall target is replaced by its
memoized Module.  `genv g p` is the module produced by the memoizer for
generator `g` at parameter value `p` (by section 4.1 it is a function of
the key). -/

def targetId (genv : Nat → Nat → Nat) : Target → Option Nat
  | .mod i => some i
  | .gen g p => some (genv g p)
  | .prim _ _ => none

/-- The module indices an instantiation of module `m` recurses into. -/
def succsOf (env : List ModuleDef) (genv : Nat → Nat → Nat) (m : Nat) : List Nat :=
  (getM env m).instances.filterMap (fun inst => targetId genv inst.target)

def stepTo (env : List ModuleDef) (genv : Nat → Nat → Nat) (a b : Nat) : Prop :=
  b ∈ succsOf env genv a

/-- `chainFrom a l`: consecutive instantiation edges from `a` through `l`. -/
def chainFrom (env : List ModuleDef) (genv : Nat → Nat → Nat) : Nat → List Nat → Prop
  | _, [] => True
  | a, b :: l => stepTo env genv a b ∧ chainFrom env genv b l

def lastOf (a : Nat) (l : List Nat) : Nat :=
  match l with
  | [] => a
  | b :: l2 => lastOf b l2

def Reaches (env : List ModuleDef) (genv : Nat → Nat → Nat) (a b : Nat) : Prop :=
  ∃ l, chainFrom env genv a l ∧ lastOf a l = b

def OnCycle (env : List ModuleDef) (genv : Nat → Nat → Nat) (a : Nat) : Prop :=
  ∃ l, l ≠ [] ∧ chainFrom env genv a l ∧ lastOf a l = a

/-- The instantiation graph reachable from `root` contains a cycle. -/
def HasCycle (env : List ModuleDef) (genv : Nat → Nat → Nat) (root : Nat) : Prop :=
  ∃ x, Reaches env genv root x ∧ OnCycle env genv x

def takeUntil (m : Nat) : List Nat → List Nat
  | [] => []
  | x :: xs => if x = m then [] else x :: takeUntil m xs

inductive ElabErr where
  | outOfFuel
  | cycleError (ids : List Nat)
deriving DecidableEq

/-- Sequencing of child results: the first error aborts the subtree. -/
def firstErr : List (Except ElabErr Unit) → Except ElabErr Unit
  | [] => .ok ()
  | r :: rest =>
    match r with
    | .error e => .error e
    | .ok _ => firstErr rest

def walk (env : List ModuleDef) (genv : Nat → Nat → Nat) :
    Nat → List Nat → Nat → Except ElabErr Unit
  | 0, _, _ => .error .outOfFuel
  | fuel + 1, path, m =>
    if m ∈ path then .error (.cycleError (m :: (takeUntil m path).reverse))
    else firstErr ((succsOf env genv m).map (fun t => walk env genv fuel (m :: path) t))

def walkList (env : List ModuleDef) (genv : Nat → Nat → Nat) (fuel : Nat) (path : List Nat)
    (ts : List Nat) : Except ElabErr Unit :=
  firstErr (ts.map (fun t => walk env genv fuel path t))

inductive RootRef where
  | mod (i : Nat)
  | gen (g : Nat) (params : Nat)
deriving DecidableEq

def rootId (genv : Nat → Nat → Nat) : RootRef → Nat
  | .mod i => i
  | .gen g p => genv g p

/-- Substitute a GeneratorCall target by its memoized Module (spec 4.2.1). -/
def substTarget (genv : Nat → Nat → Nat) : Target → Target
  | .gen g p => .mod (genv g p)
  | t => t

def elabModuleDef (genv : Nat → Nat → Nat) (m : ModuleDef) : ModuleDef :=
  { m with instances := m.instances.map (fun i => { i with target := substTarget genv i.target }) }

/-- Modelled from the spec: `elaborate(root)` for a Module or GeneratorCall
root: cycle-check the instantiation graph depth-first (with fuel
`env.length + 1`, which the results below show is never exhausted on
closed designs), then replace every GeneratorCall target everywhere by its
memoized Module. -/
def elaborate (env : List ModuleDef) (genv : Nat → Nat → Nat) (root : RootRef) :
    Except ElabErr (List ModuleDef × Nat) :=
  match walk env genv (env.length + 1) [] (rootId genv root) with
  | .error e => .error e
  | .ok _ => .ok (env.map (elabModuleDef genv), rootId genv root)

/-- The stack `path` is the active DFS path from `root` down to `m`. -/
inductive StackFrom (env : List ModuleDef) (genv : Nat → Nat → Nat) (root : Nat) :
    List Nat → Nat → Prop where
  | base : StackFrom env genv root [] root
  | push {p m t} : StackFrom env genv root p m → stepTo env genv m t →
      StackFrom env genv root (m :: p) t

/-! Basic path lemmas -/

theorem lastOf_append_one (a t : Nat) : ∀ l, lastOf a (l ++ [t]) = t := by
  intro l
  induction l generalizing a with
  | nil => rfl
  | cons b l2 ih => exact ih b

theorem chainFrom_append_one (env : List ModuleDef) (genv : Nat → Nat → Nat) (t : Nat) :
    ∀ l a, chainFrom env genv a l → stepTo env genv (lastOf a l) t →
      chainFrom env genv a (l ++ [t]) := by
  intro l
  induction l with
  | nil => intro a _ hs; exact ⟨hs, trivial⟩
  | cons b l2 ih => intro a hc hs; exact ⟨hc.1, ih b hc.2 hs⟩

theorem reaches_refl (env : List ModuleDef) (genv : Nat → Nat → Nat) (a : Nat) :
    Reaches env genv a a := ⟨[], trivial, rfl⟩

theorem step_reaches {env : List ModuleDef} {genv : Nat → Nat → Nat} {a b : Nat}
    (h : stepTo env genv a b) : Reaches env genv a b := ⟨[b], ⟨h, trivial⟩, rfl⟩

theorem reaches_step {env : List ModuleDef} {genv : Nat → Nat → Nat} {a b c : Nat}
    (h1 : Reaches env genv a b) (h2 : stepTo env genv b c) : Reaches env genv a c := by
  rcases h1 with ⟨l, hc, hl⟩
  exact ⟨l ++ [c], chainFrom_append_one env genv c l a hc (hl ▸ h2), lastOf_append_one a c l⟩

theorem reaches_head {env : List ModuleDef} {genv : Nat → Nat → Nat} {a b c : Nat}
    (h1 : stepTo env genv a b) (h2 : Reaches env genv b c) : Reaches env genv a c := by
  rcases h2 with ⟨l, hc, hl⟩
  exact ⟨b :: l, ⟨h1, hc⟩, hl⟩

theorem stackFrom_reaches {env : List ModuleDef} {genv : Nat → Nat → Nat} {root : Nat}
    {p : List Nat} {m : Nat} (h : StackFrom env genv root p m) : Reaches env genv root m := by
  induction h with
  | base => exact reaches_refl env genv root
  | push h1 h2 ih => exact reaches_step ih h2

theorem stackFrom_mem_reaches {env : List ModuleDef} {genv : Nat → Nat → Nat} {root : Nat}
    {p : List Nat} {m : Nat} (h : StackFrom env genv root p m) :
    ∀ x ∈ p, Reaches env genv root x := by
  induction h with
  | base => intro x hx; exact absurd hx (List.not_mem_nil x)
  | push h1 h2 ih =>
    intro x hx
    rcases List.mem_cons.mp hx with h3 | h4
    · exact h3 ▸ stackFrom_reaches h1
    · exact ih x h4

theorem stackFrom_cycle (env : List ModuleDef) (genv : Nat → Nat → Nat) (root : Nat) :
    ∀ q x r m, StackFrom env genv root (q ++ x :: r) m →
      chainFrom env genv x (q.reverse ++ [m]) := by
  intro q
  induction q with
  | nil =>
    intro x r m h
    cases h with
    | push h1 h2 => exact ⟨h2, trivial⟩
  | cons y q2 ih =>
    intro x r m h
    cases h with
    | push h1 h2 =>
      have hc := ih x r y h1
      have hl : lastOf x (q2.reverse ++ [y]) = y := lastOf_append_one x y q2.reverse
      have hstep : stepTo env genv (lastOf x (q2.reverse ++ [y])) m := by
        rw [hl]
        exact h2
      have := chainFrom_append_one env genv m (q2.reverse ++ [y]) x hc hstep
      simpa [List.reverse_cons, List.append_assoc] using this

theorem takeUntil_decomp (m : Nat) : ∀ p : List Nat, m ∈ p →
    ∃ b, p = takeUntil m p ++ m :: b := by
  intro p
  induction p with
  | nil => intro h; exact absurd h (List.not_mem_nil m)
  | cons x xs ih =>
    intro h
    by_cases hx : x = m
    · subst hx
      exact ⟨xs, by simp [takeUntil]⟩
    · rcases List.mem_cons.mp h with h1 | h2
      · exact absurd h1.symm hx
      · rcases ih h2 with ⟨b, hb⟩
        refine ⟨b, ?_⟩
        simp only [takeUntil, if_neg hx, List.cons_append]
        rw [← hb]

theorem takeUntil_subset (m : Nat) : ∀ p, ∀ x ∈ takeUntil m p, x ∈ p := by
  intro p
  induction p with
  | nil => intro x hx; exact absurd hx (List.not_mem_nil x)
  | cons y ys ih =>
    intro x hx
    simp only [takeUntil] at hx
    by_cases hy : y = m
    · rw [if_pos hy] at hx
      exact absurd hx (List.not_mem_nil x)
    · rw [if_neg hy] at hx
      rcases List.mem_cons.mp hx with h1 | h2
      · exact h1 ▸ List.mem_cons_self y ys
      · exact List.mem_cons_of_mem y (ih x h2)

/-! Behaviour of the DFS walk -/

theorem walk_zero (env : List ModuleDef) (genv : Nat → Nat → Nat) (path : List Nat) (m : Nat) :
    walk env genv 0 path m = .error .outOfFuel := rfl

theorem walk_succ (env : List ModuleDef) (genv : Nat → Nat → Nat) (fuel : Nat)
    (path : List Nat) (m : Nat) :
    walk env genv (fuel + 1) path m =
      if m ∈ path then .error (.cycleError (m :: (takeUntil m path).reverse))
      else walkList env genv fuel (m :: path) (succsOf env genv m) := rfl

theorem walkList_nil (env : List ModuleDef) (genv : Nat → Nat → Nat) (fuel : Nat)
    (path : List Nat) : walkList env genv fuel path [] = .ok () := rfl

theorem walkList_cons (env : List ModuleDef) (genv : Nat → Nat → Nat) (fuel : Nat)
    (path : List Nat) (t : Nat) (ts : List Nat) :
    walkList env genv fuel path (t :: ts) =
      match walk env genv fuel path t with
      | .error e => .error e
      | .ok _ => walkList env genv fuel path ts := by
  simp only [walkList, List.map_cons]
  cases walk env genv fuel path t <;> rfl

theorem walkList_ok_inv (env : List ModuleDef) (genv : Nat → Nat → Nat) (fuel : Nat)
    (path : List Nat) : ∀ ts, walkList env genv fuel path ts = .ok () →
      ∀ t ∈ ts, walk env genv fuel path t = .ok () := by
  intro ts
  induction ts with
  | nil => intro _ t ht; exact absurd ht (List.not_mem_nil t)
  | cons t2 ts2 ih =>
    intro h t ht
    rw [walkList_cons] at h
    revert h
    cases hw : walk env genv fuel path t2 with
    | error e => intro h; exact Except.noConfusion h
    | ok u =>
      intro h
      rcases List.mem_cons.mp ht with h1 | h2
      · subst h1
        cases u
        exact hw
      · exact ih h t h2

theorem walkList_err_inv (env : List ModuleDef) (genv : Nat → Nat → Nat) (fuel : Nat)
    (path : List Nat) : ∀ ts e, walkList env genv fuel path ts = .error e →
      ∃ t ∈ ts, walk env genv fuel path t = .error e := by
  intro ts
  induction ts with
  | nil =>
    intro e h
    exact Except.noConfusion h
  | cons t2 ts2 ih =>
    intro e h
    rw [walkList_cons] at h
    revert h
    cases hw : walk env genv fuel path t2 with
    | error e2 =>
      intro h
      refine ⟨t2, List.mem_cons_self t2 ts2, ?_⟩
      rw [hw]
      exact h
    | ok u =>
      intro h
      rcases ih e h with ⟨t, ht, hwt⟩
      exact ⟨t, List.mem_cons_of_mem t2 ht, hwt⟩

theorem walkList_ok_of (env : List ModuleDef) (genv : Nat → Nat → Nat) (fuel : Nat)
    (path : List Nat) : ∀ ts, (∀ t ∈ ts, walk env genv fuel path t = .ok ()) →
      walkList env genv fuel path ts = .ok () := by
  intro ts
  induction ts with
  | nil => intro _; rfl
  | cons t2 ts2 ih =>
    intro h
    rw [walkList_cons, h t2 (List.mem_cons_self t2 ts2)]
    exact ih (fun t ht => h t (List.mem_cons_of_mem t2 ht))

theorem walk_ok_inv (env : List ModuleDef) (genv : Nat → Nat → Nat) (fuel : Nat)
    (path : List Nat) (m : Nat) (h : walk env genv (fuel + 1) path m = .ok ()) :
    m ∉ path ∧ walkList env genv fuel (m :: path) (succsOf env genv m) = .ok () := by
  rw [walk_succ] at h
  by_cases hm : m ∈ path
  · rw [if_pos hm] at h
    exact Except.noConfusion h
  · rw [if_neg hm] at h
    exact ⟨hm, h⟩

theorem nodup_bound (n : Nat) (p : List Nat) (hnd : p.Nodup) (hb : ∀ x ∈ p, x < n) :
    p.length ≤ n := by
  have h1 : p.toFinset.card = p.length := List.toFinset_card_of_nodup hnd
  have h2 : p.toFinset ⊆ Finset.range n :=
    fun x hx => Finset.mem_range.mpr (hb x (List.mem_toFinset.mp hx))
  have h3 := Finset.card_le_card h2
  rw [h1, Finset.card_range] at h3
  exact h3

/-- On a closed design whose reachable part is acyclic, the walk succeeds. -/
theorem walk_acyclic_ok (env : List ModuleDef) (genv : Nat → Nat → Nat)
    (hcl : ∀ m, m < env.length → ∀ t ∈ succsOf env genv m, t < env.length) :
    ∀ fuel path m, env.length + 1 ≤ fuel + path.length → path.Nodup →
      (∀ x ∈ path, x < env.length) → m < env.length →
      (∀ x ∈ path, ¬ Reaches env genv m x) →
      (∀ x, Reaches env genv m x → ¬ OnCycle env genv x) →
      walk env genv fuel path m = .ok () := by
  intro fuel
  induction fuel with
  | zero =>
    intro path m hfuel hnd hb _ _ _
    exfalso
    have := nodup_bound env.length path hnd hb
    omega
  | succ fuel ih =>
    intro path m hfuel hnd hb hm hpre hacy
    have hmp : m ∉ path := fun hmem => hpre m hmem (reaches_refl env genv m)
    rw [walk_succ, if_neg hmp]
    apply walkList_ok_of
    intro t ht
    have hstep : stepTo env genv m t := ht
    apply ih (m :: path) t
    · simp only [List.length_cons]
      omega
    · exact List.nodup_cons.mpr ⟨hmp, hnd⟩
    · intro x hx
      rcases List.mem_cons.mp hx with h1 | h2
      · exact h1 ▸ hm
      · exact hb x h2
    · exact hcl m hm t ht
    · intro x hx hr
      rcases List.mem_cons.mp hx with h1 | h2
      · subst h1
        rcases hr with ⟨l, hc, hl⟩
        exact hacy x (reaches_refl env genv x) ⟨t :: l, List.cons_ne_nil t l, ⟨hstep, hc⟩, hl⟩
      · exact hpre x h2 (reaches_head hstep hr)
    · intro x hr
      exact hacy x (reaches_head hstep hr)

theorem walkList_no_fuel (env : List ModuleDef) (genv : Nat → Nat → Nat) (fuel : Nat)
    (path : List Nat) : ∀ ts, (∀ t ∈ ts, walk env genv fuel path t ≠ .error .outOfFuel) →
      walkList env genv fuel path ts ≠ .error .outOfFuel := by
  intro ts
  induction ts with
  | nil =>
    intro _ h
    exact Except.noConfusion h
  | cons t2 ts2 ih =>
    intro h
    rw [walkList_cons]
    cases hw : walk env genv fuel path t2 with
    | error e =>
      intro hcontra
      exact h t2 (List.mem_cons_self t2 ts2) (hw.trans hcontra)
    | ok u => exact ih (fun t ht => h t (List.mem_cons_of_mem t2 ht))

/-- On a closed design, fuel `env.length + 1` is never exhausted: the walk
stack is duplicate-free and drawn from the module indices. -/
theorem walk_no_fuel (env : List ModuleDef) (genv : Nat → Nat → Nat)
    (hcl : ∀ m, m < env.length → ∀ t ∈ succsOf env genv m, t < env.length) :
    ∀ fuel path m, env.length + 1 ≤ fuel + path.length → path.Nodup →
      (∀ x ∈ path, x < env.length) → m < env.length →
      walk env genv fuel path m ≠ .error .outOfFuel := by
  intro fuel
  induction fuel with
  | zero =>
    intro path m hfuel hnd hb _
    exfalso
    have := nodup_bound env.length path hnd hb
    omega
  | succ fuel ih =>
    intro path m hfuel hnd hb hm
    rw [walk_succ]
    by_cases hmp : m ∈ path
    · rw [if_pos hmp]
      intro hcontra
      rw [Except.error.injEq] at hcontra
      exact ElabErr.noConfusion hcontra
    · rw [if_neg hmp]
      apply walkList_no_fuel
      intro t ht
      apply ih (m :: path) t
      · simp only [List.length_cons]
        omega
      · exact List.nodup_cons.mpr ⟨hmp, hnd⟩
      · intro x hx
        rcases List.mem_cons.mp hx with h1 | h2
        · exact h1 ▸ hm
        · exact hb x h2
      · exact hcl m hm t ht

/-- A successful walk transports along any chain of instantiation edges. -/
theorem walk_ok_chain (env : List ModuleDef) (genv : Nat → Nat → Nat) :
    ∀ l fuel path m, walk env genv fuel path m = .ok () → chainFrom env genv m l →
      ∃ fuel2 path2, (∀ x ∈ path, x ∈ path2) ∧ (l ≠ [] → m ∈ path2) ∧
        walk env genv fuel2 path2 (lastOf m l) = .ok () := by
  intro l
  induction l with
  | nil =>
    intro fuel path m hw _
    exact ⟨fuel, path, fun _ hx => hx, fun h => absurd rfl h, hw⟩
  | cons t l2 ih =>
    intro fuel path m hw hc
    cases fuel with
    | zero =>
      rw [walk_zero] at hw
      exact Except.noConfusion hw
    | succ fuel2 =>
      rcases walk_ok_inv env genv fuel2 path m hw with ⟨_, hlist⟩
      have hwt := walkList_ok_inv env genv fuel2 (m :: path) _ hlist t hc.1
      rcases ih fuel2 (m :: path) t hwt hc.2 with ⟨f2, p2, hsub, _, hok⟩
      exact ⟨f2, p2, fun x hx => hsub x (List.mem_cons_of_mem m hx),
        fun _ => hsub m (List.mem_cons_self m path), hok⟩

/-- A successful walk rules out any reachable cycle. -/
theorem walk_ok_no_cycle (env : List ModuleDef) (genv : Nat → Nat → Nat)
    (fuel : Nat) (path : List Nat) (m x : Nat)
    (hw : walk env genv fuel path m = .ok ()) (hr : Reaches env genv m x)
    (hcy : OnCycle env genv x) : False := by
  rcases hr with ⟨l1, hc1, hl1⟩
  rcases walk_ok_chain env genv l1 fuel path m hw hc1 with ⟨f2, p2, _, _, hok⟩
  rw [hl1] at hok
  rcases hcy with ⟨l2, hne, hc2, hl2⟩
  rcases walk_ok_chain env genv l2 f2 p2 x hok hc2 with ⟨f3, p3, _, hin3, hok3⟩
  rw [hl2] at hok3
  have hxp3 : x ∈ p3 := hin3 hne
  cases f3 with
  | zero =>
    rw [walk_zero] at hok3
    exact Except.noConfusion hok3
  | succ f4 =>
    exact (walk_ok_inv env genv f4 p3 x hok3).1 hxp3

/-- The ids named by a cycle error form a genuine instantiation cycle, and
each participant is reachable from the root. -/
theorem walk_cycle_names (env : List ModuleDef) (genv : Nat → Nat → Nat) (root : Nat) :
    ∀ fuel path m, StackFrom env genv root path m →
      ∀ ids, walk env genv fuel path m = .error (.cycleError ids) →
        (∃ hh tt, ids = hh :: tt ∧ chainFrom env genv hh (tt ++ [hh])) ∧
        ∀ i ∈ ids, Reaches env genv root i := by
  intro fuel
  induction fuel with
  | zero =>
    intro path m _ ids hw
    rw [walk_zero, Except.error.injEq] at hw
    exact ElabErr.noConfusion hw
  | succ fuel ih =>
    intro path m hs ids hw
    rw [walk_succ] at hw
    by_cases hm : m ∈ path
    · rw [if_pos hm, Except.error.injEq, ElabErr.cycleError.injEq] at hw
      subst hw
      constructor
      · refine ⟨m, (takeUntil m path).reverse, rfl, ?_⟩
        rcases takeUntil_decomp m path hm with ⟨b, hb⟩
        exact stackFrom_cycle env genv root (takeUntil m path) m b m (hb ▸ hs)
      · intro i hi
        rcases List.mem_cons.mp hi with h1 | h2
        · exact h1 ▸ stackFrom_reaches hs
        · exact stackFrom_mem_reaches hs i (takeUntil_subset m path i (List.mem_reverse.mp h2))
    · rw [if_neg hm] at hw
      rcases walkList_err_inv env genv fuel (m :: path) _ _ hw with ⟨t, ht, hwt⟩
      exact ih (m :: path) t (StackFrom.push hs ht) ids hwt

theorem elaborate_err_iff (env : List ModuleDef) (genv : Nat → Nat → Nat) (root : RootRef)
    (e : ElabErr) :
    elaborate env genv root = .error e ↔
      walk env genv (env.length + 1) [] (rootId genv root) = .error e := by
  unfold elaborate
  cases hw : walk env genv (env.length + 1) [] (rootId genv root) with
  | error e2 => simp
  | ok u => simp

/-- C2: a root whose reachable instantiation graph contains a cycle fails
elaboration with a cycle error identifying the participating module
indices (they form a closed instantiation chain reachable from the root);
a root with no reachable cycle never produces a cycle error. -/
theorem elaborate_cycle_detection (env : List ModuleDef) (genv : Nat → Nat → Nat)
    (root : RootRef)
    (hcl : ∀ m, m < env.length → ∀ t ∈ succsOf env genv m, t < env.length)
    (hroot : rootId genv root < env.length) :
    ((∃ ids, elaborate env genv root = .error (.cycleError ids)) ↔
      HasCycle env genv (rootId genv root)) ∧
    (∀ ids, elaborate env genv root = .error (.cycleError ids) →
      (∃ hh tt, ids = hh :: tt ∧ chainFrom env genv hh (tt ++ [hh])) ∧
      ∀ i ∈ ids, Reaches env genv (rootId genv root) i) := by
  constructor
  · constructor
    · rintro ⟨ids, hids⟩
      have hw := (elaborate_err_iff env genv root _).mp hids
      have hn := walk_cycle_names env genv (rootId genv root) (env.length + 1) []
        (rootId genv root) StackFrom.base ids hw
      rcases hn.1 with ⟨hh, tt, hid, hchain⟩
      refine ⟨hh, hn.2 hh (hid ▸ List.mem_cons_self hh tt),
        ⟨tt ++ [hh], by simp, hchain, lastOf_append_one hh hh tt⟩⟩
    · intro hcy
      rcases hcy with ⟨x, hr, hocy⟩
      cases hw : walk env genv (env.length + 1) [] (rootId genv root) with
      | ok u =>
        exfalso
        cases u
        exact walk_ok_no_cycle env genv (env.length + 1) [] (rootId genv root) x hw hr hocy
      | error e =>
        cases e with
        | outOfFuel =>
          exfalso
          refine walk_no_fuel env genv hcl (env.length + 1) [] (rootId genv root) ?_
            List.nodup_nil ?_ hroot hw
          · simp
          · intro y hy
            exact absurd hy (List.not_mem_nil y)
        | cycleError ids => exact ⟨ids, (elaborate_err_iff env genv root _).mpr hw⟩
  · intro ids hids
    exact walk_cycle_names env genv (rootId genv root) (env.length + 1) []
      (rootId genv root) StackFrom.base ids ((elaborate_err_iff env genv root _).mp hids)

/-- A one-module design whose module instantiates itself. -/
def envCyc : List ModuleDef := [⟨"A", [], [], [⟨"i", .mod 0, []⟩]⟩]

def genvTriv : Nat → Nat → Nat := fun _ _ => 0

theorem elaborate_cycle_detection_witness :
    ((∃ ids, elaborate envCyc genvTriv (RootRef.mod 0) = .error (.cycleError ids)) ↔
      HasCycle envCyc genvTriv (rootId genvTriv (RootRef.mod 0))) ∧
    (∀ ids, elaborate envCyc genvTriv (RootRef.mod 0) = .error (.cycleError ids) →
      (∃ hh tt, ids = hh :: tt ∧ chainFrom envCyc genvTriv hh (tt ++ [hh])) ∧
      ∀ i ∈ ids, Reaches envCyc genvTriv (rootId genvTriv (RootRef.mod 0)) i) :=
  elaborate_cycle_detection envCyc genvTriv (RootRef.mod 0) (by decide) (by decide)

/-! ### No GeneratorCall remains after elaboration (claim C3) -/

theorem getM_map_rewritten (env : List ModuleDef) (genv : Nat → Nat → Nat) (m : Nat) :
    getM (env.map (elabModuleDef genv)) m =
      if m < env.length then elabModuleDef genv (getM env m) else emptyModule := by
  unfold getM
  by_cases hm : m < env.length
  · rw [if_pos hm]
    rw [List.getD_eq_getElem?_getD, List.getElem?_map, List.getD_eq_getElem?_getD,
      List.getElem?_eq_getElem hm]
    rfl
  · rw [if_neg hm]
    rw [List.getD_eq_getElem?_getD, List.getElem?_eq_none, Option.getD_none]
    rw [List.length_map]
    omega

theorem substTarget_not_gen (genv : Nat → Nat → Nat) (t : Target) :
    (substTarget genv t).isGen = false := by
  cases t <;> rfl

/-- C3: on success, the returned graph contains no GeneratorCall anywhere
in its reachable part: every Instance's target is a Module or a
PrimitiveCall. -/
theorem elaborate_no_generator_calls (env : List ModuleDef) (genv : Nat → Nat → Nat)
    (root : RootRef) (env2 : List ModuleDef) (r : Nat)
    (h : elaborate env genv root = .ok (env2, r)) :
    ∀ m, Reaches env2 genv r m → ∀ inst ∈ (getM env2 m).instances,
      inst.target.isGen = false := by
  have henv : env2 = env.map (elabModuleDef genv) := by
    unfold elaborate at h
    revert h
    cases hw : walk env genv (env.length + 1) [] (rootId genv root) with
    | error e => intro h; exact Except.noConfusion h
    | ok u =>
      intro h
      exact (congrArg Prod.fst (Except.ok.inj h)).symm
  subst henv
  intro m _ inst hinst
  rw [getM_map_rewritten] at hinst
  by_cases hm : m < env.length
  · rw [if_pos hm] at hinst
    rcases List.mem_map.mp hinst with ⟨inst0, _, hmap⟩
    rw [← hmap]
    exact substTarget_not_gen genv inst0.target
  · rw [if_neg hm] at hinst
    exact absurd hinst (List.not_mem_nil inst)

/-- A two-module design: a generator call resolving to a leaf module. -/
def envAcyc : List ModuleDef :=
  [⟨"Leaf", [], [], []⟩, ⟨"Top", [], [], [⟨"u", .gen 0 0, []⟩]⟩]

theorem elaborate_no_generator_calls_witness :
    (InstDecl.mk "u" (Target.mod 0) []).target.isGen = false :=
  elaborate_no_generator_calls envAcyc genvTriv (RootRef.mod 1)
    (envAcyc.map (elabModuleDef genvTriv)) 1 rfl 1 (reaches_refl _ _ 1)
    ⟨"u", .mod 0, []⟩ (by decide)

/-! ### Idempotence of elaboration (claim C4) -/

theorem substTarget_idem (genv : Nat → Nat → Nat) (t : Target) :
    substTarget genv (substTarget genv t) = substTarget genv t := by
  cases t <;> rfl

theorem targetId_subst (genv : Nat → Nat → Nat) (t : Target) :
    targetId genv (substTarget genv t) = targetId genv t := by
  cases t <;> rfl

theorem succsOf_map_rewritten (env : List ModuleDef) (genv : Nat → Nat → Nat) (m : Nat) :
    succsOf (env.map (elabModuleDef genv)) genv m = succsOf env genv m := by
  unfold succsOf
  rw [getM_map_rewritten]
  by_cases hm : m < env.length
  · rw [if_pos hm]
    simp only [elabModuleDef, List.filterMap_map]
    apply List.filterMap_congr
    intro inst _
    exact targetId_subst genv inst.target
  · rw [if_neg hm]
    unfold getM
    rw [List.getD_eq_getElem?_getD, List.getElem?_eq_none (by omega), Option.getD_none]

theorem walk_env_congr (env1 env2 : List ModuleDef) (genv : Nat → Nat → Nat)
    (hs : ∀ m, succsOf env1 genv m = succsOf env2 genv m) :
    ∀ fuel path m, walk env1 genv fuel path m = walk env2 genv fuel path m := by
  intro fuel
  induction fuel with
  | zero => intro path m; rfl
  | succ fuel ih =>
    intro path m
    rw [walk_succ, walk_succ, hs m]
    by_cases hm : m ∈ path
    · rw [if_pos hm, if_pos hm]
    · rw [if_neg hm, if_neg hm]
      unfold walkList
      have : ∀ ts : List Nat,
          ts.map (fun t => walk env1 genv fuel (m :: path) t)
            = ts.map (fun t => walk env2 genv fuel (m :: path) t) :=
        fun ts => List.map_congr_left (fun t _ => ih (m :: path) t)
      rw [this]

theorem elabModuleDef_idem (genv : Nat → Nat → Nat) (m : ModuleDef) :
    elabModuleDef genv (elabModuleDef genv m) = elabModuleDef genv m := by
  unfold elabModuleDef
  simp only [List.map_map]
  congr 1
  apply List.map_congr_left
  intro inst _
  simp only [Function.comp]
  congr 1
  exact substTarget_idem genv inst.target

/-- C4: elaboration is idempotent: re-elaborating the Module produced by a
successful elaboration returns exactly the same module list and root
(structurally equal, and sub-Modules are the same references). -/
theorem elaborate_idempotent (env : List ModuleDef) (genv : Nat → Nat → Nat)
    (root : RootRef) (env2 : List ModuleDef) (r : Nat)
    (h : elaborate env genv root = .ok (env2, r)) :
    elaborate env2 genv (.mod r) = .ok (env2, r) := by
  have hwalk : ∀ u, walk env genv (env.length + 1) [] (rootId genv root) = .ok u →
      env2 = env.map (elabModuleDef genv) ∧ r = rootId genv root := by
    intro u hw
    unfold elaborate at h
    rw [hw] at h
    have h2 := Except.ok.inj h
    exact ⟨(congrArg Prod.fst h2).symm, (congrArg Prod.snd h2).symm⟩
  unfold elaborate at h ⊢
  revert h
  cases hw : walk env genv (env.length + 1) [] (rootId genv root) with
  | error e => intro h; exact Except.noConfusion h
  | ok u =>
    intro h
    rcases hwalk u hw with ⟨henv, hr⟩
    subst henv
    subst hr
    have hs : ∀ m, succsOf (env.map (elabModuleDef genv)) genv m = succsOf env genv m :=
      succsOf_map_rewritten env genv
    have hlen : (env.map (elabModuleDef genv)).length = env.length := List.length_map env _
    have hw2 : walk (env.map (elabModuleDef genv)) genv
        ((env.map (elabModuleDef genv)).length + 1) [] (rootId genv root) = .ok u := by
      rw [hlen, walk_env_congr (env.map (elabModuleDef genv)) env genv hs]
      exact hw
    rw [rootId, hw2]
    cases u
    rw [Except.ok.injEq, Prod.mk.injEq]
    refine ⟨?_, rfl⟩
    rw [List.map_map]
    apply List.map_congr_left
    intro md _
    simp only [Function.comp]
    exact elabModuleDef_idem genv md

theorem elaborate_idempotent_witness :
    elaborate (envAcyc.map (elabModuleDef genvTriv)) genvTriv (.mod 1)
      = .ok (envAcyc.map (elabModuleDef genvTriv), 1) :=
  elaborate_idempotent envAcyc genvTriv (RootRef.mod 1)
    (envAcyc.map (elabModuleDef genvTriv)) 1 rfl

/-! ### Connectivity validator (spec section 4.3)

Modelled from the spec: for every Instance, every target port must have
exactly one connection; no connection may reference a port absent from the
target's port list; connected signals must exist in the enclosing Module
with matching bit-width; and an OUTPUT port driven from two instances in
the same scope is a multiple-driver conflict.  `prims` gives each
Primitive kind's fixed ordered port list. -/

def targetPorts (env : List ModuleDef) (prims : Nat → List PortDecl)
    (genv : Nat → Nat → Nat) : Target → List PortDecl
  | .mod i => (getM env i).ports
  | .prim k _ => prims k
  | .gen g p => (getM env (genv g p)).ports

inductive ConnErr where
  | missingConn (inst port : String)
  | duplicateConn (inst port : String)
  | extraConn (inst port : String)
  | unknownSignal (inst port sig : String)
  | widthMismatch (inst port : String) (portW sigW : Nat)
  | multipleDrivers (sig : String)
deriving DecidableEq

/-- Width of the named signal of the enclosing Module (port or internal). -/
def findSignalWidth (m : ModuleDef) (nm : String) : Option Nat :=
  match m.ports.find? (fun pt => pt.name == nm) with
  | some pt => some pt.width
  | none => alookup m.signals nm

def countConns (conns : List (String × String)) (pn : String) : Nat :=
  (conns.filter (fun c => c.1 == pn)).length

def collect {α : Type} (f : α → List ConnErr) : List α → List ConnErr
  | [] => []
  | x :: xs => f x ++ collect f xs

def portErr (inst : InstDecl) (pt : PortDecl) : List ConnErr :=
  match countConns inst.conns pt.name with
  | 0 => [.missingConn inst.name pt.name]
  | 1 => []
  | _ + 2 => [.duplicateConn inst.name pt.name]

def connErr (env : List ModuleDef) (prims : Nat → List PortDecl) (genv : Nat → Nat → Nat)
    (m : ModuleDef) (inst : InstDecl) (c : String × String) : List ConnErr :=
  match (targetPorts env prims genv inst.target).find? (fun pt => pt.name == c.1) with
  | none => [.extraConn inst.name c.1]
  | some pt =>
    match findSignalWidth m c.2 with
    | none => [.unknownSignal inst.name c.1 c.2]
    | some w => if w = pt.width then [] else [.widthMismatch inst.name c.1 pt.width w]

def instErrs (env : List ModuleDef) (prims : Nat → List PortDecl) (genv : Nat → Nat → Nat)
    (m : ModuleDef) (inst : InstDecl) : List ConnErr :=
  collect (portErr inst) (targetPorts env prims genv inst.target) ++
    collect (connErr env prims genv m inst) inst.conns

def instDrives (env : List ModuleDef) (prims : Nat → List PortDecl) (genv : Nat → Nat → Nat)
    (inst : InstDecl) (sig : String) : Bool :=
  inst.conns.any (fun c =>
    c.2 == sig &&
      match (targetPorts env prims genv inst.target).find? (fun pt => pt.name == c.1) with
      | some pt => pt.dir == PortDir.OUTPUT
      | none => false)

def driverErrs (env : List ModuleDef) (prims : Nat → List PortDecl) (genv : Nat → Nat → Nat)
    (m : ModuleDef) : List ConnErr :=
  collect
    (fun s =>
      if 2 ≤ (m.instances.filter (fun inst => instDrives env prims genv inst s)).length
      then [.multipleDrivers s] else [])
    (m.ports.map (fun pt => pt.name) ++ m.signals.map (fun sg => sg.1))

/-- Modelled from the spec: `validate(module)` (spec 4.3); the empty error
list is `ok`. -/
def validate (env : List ModuleDef) (prims : Nat → List PortDecl) (genv : Nat → Nat → Nat)
    (m : ModuleDef) : List ConnErr :=
  collect (instErrs env prims genv m) m.instances ++ driverErrs env prims genv m

theorem collect_eq_nil {α : Type} (f : α → List ConnErr) :
    ∀ l, collect f l = [] ↔ ∀ x ∈ l, f x = [] := by
  intro l
  induction l with
  | nil => simp [collect]
  | cons x xs ih =>
    simp only [collect, List.append_eq_nil, ih, List.mem_cons]
    constructor
    · rintro ⟨h1, h2⟩ y hy
      rcases hy with h3 | h4
      · exact h3 ▸ h1
      · exact h2 y h4
    · intro h
      exact ⟨h x (Or.inl rfl), fun y hy => h y (Or.inr hy)⟩

theorem mem_collect {α : Type} (f : α → List ConnErr) (e : ConnErr) :
    ∀ l, e ∈ collect f l ↔ ∃ x ∈ l, e ∈ f x := by
  intro l
  induction l with
  | nil => simp [collect]
  | cons x xs ih =>
    simp only [collect, List.mem_append, ih, List.mem_cons]
    constructor
    · rintro (h1 | ⟨y, hy, he⟩)
      · exact ⟨x, Or.inl rfl, h1⟩
      · exact ⟨y, Or.inr hy, he⟩
    · rintro ⟨y, h1 | h2, he⟩
      · exact Or.inl (h1 ▸ he)
      · exact Or.inr ⟨y, h2, he⟩

/-- C5: `validate` returns ok only if every Instance connection names a
target port and references an existing signal of the enclosing Module with
matching bit-width, and every target port has exactly one connection; an
Instance missing a port connection is rejected with a `ConnectivityError`
(`missingConn`). -/
theorem validate_connectivity (env : List ModuleDef) (prims : Nat → List PortDecl)
    (genv : Nat → Nat → Nat) (m : ModuleDef) :
    (validate env prims genv m = [] →
      ∀ inst ∈ m.instances,
        (∀ c ∈ inst.conns, ∃ pt ∈ targetPorts env prims genv inst.target,
          pt.name = c.1 ∧ findSignalWidth m c.2 = some pt.width) ∧
        (∀ pt ∈ targetPorts env prims genv inst.target, countConns inst.conns pt.name = 1)) ∧
    (∀ inst ∈ m.instances, ∀ pt ∈ targetPorts env prims genv inst.target,
      countConns inst.conns pt.name = 0 →
      ConnErr.missingConn inst.name pt.name ∈ validate env prims genv m) := by
  constructor
  · intro hok inst hinst
    have hnil : instErrs env prims genv m inst = [] :=
      (collect_eq_nil _ _).mp (List.append_eq_nil.mp hok).1 inst hinst
    have hsplit := List.append_eq_nil.mp (by simpa [instErrs] using hnil)
    constructor
    · intro c hc
      have hce := (collect_eq_nil _ _).mp hsplit.2 c hc
      revert hce
      unfold connErr
      cases hf : (targetPorts env prims genv inst.target).find? (fun pt => pt.name == c.1) with
      | none => intro hcontra; exact absurd hcontra (by simp)
      | some pt =>
        cases hw : findSignalWidth m c.2 with
        | none => intro hcontra; exact absurd hcontra (by simp)
        | some w =>
          by_cases hww : w = pt.width
          · intro _
            refine ⟨pt, List.mem_of_find?_eq_some hf, ?_, ?_⟩
            · simpa using List.find?_some hf
            · exact congrArg some hww
          · intro hcontra
            have hcontra2 : (if w = pt.width then ([] : List ConnErr)
                else [ConnErr.widthMismatch inst.name c.1 pt.width w]) = [] := hcontra
            rw [if_neg hww] at hcontra2
            exact absurd hcontra2 (by simp)
    · intro pt hpt
      have hpe := (collect_eq_nil _ _).mp hsplit.1 pt hpt
      revert hpe
      unfold portErr
      cases hc : countConns inst.conns pt.name with
      | zero => intro hcontra; exact absurd hcontra (by simp)
      | succ n =>
        cases n with
        | zero => intro _; rfl
        | succ n2 => intro hcontra; exact absurd hcontra (by simp)
  · intro inst hinst pt hpt hz
    apply List.mem_append_left
    refine (mem_collect _ _ _).mpr ⟨inst, hinst, ?_⟩
    unfold instErrs
    apply List.mem_append_left
    refine (mem_collect _ _ _).mpr ⟨pt, hpt, ?_⟩
    unfold portErr
    rw [hz]
    simp

/-- A primitive kind with ports p and n, and a module connecting both. -/
def prims2 : Nat → List PortDecl := fun _ => [⟨"p", 1, .NONE⟩, ⟨"n", 1, .NONE⟩]

def mOK : ModuleDef :=
  ⟨"M", [⟨"a", 1, .NONE⟩, ⟨"b", 1, .NONE⟩], [],
    [⟨"i1", .prim 0 0, [("p", "a"), ("n", "b")]⟩]⟩

theorem validate_connectivity_witness :
    countConns (InstDecl.mk "i1" (Target.prim 0 0) [("p", "a"), ("n", "b")]).conns "p" = 1 :=
  ((validate_connectivity [] prims2 genvTriv mOK).1 rfl
    ⟨"i1", .prim 0 0, [("p", "a"), ("n", "b")]⟩ (by decide)).2
    ⟨"p", 1, .NONE⟩ (by decide)

/-! ### Netlist emitter (spec sections 4.4 and 6)

Modelled from the spec: a single bottom-up traversal of the resolved graph
emitting every distinct Module once; for a Primitive instance the
`pdk_mapping` supplies the device name and the ordered parameter pairs,
rendered as a connection line, a device-name line and a parameter line,
each starting with the SPICE continuation marker. -/

inductive EmitErr where
  | unsupportedDeviceVariant (kind params : Nat)
  | unresolvedGenerator (g params : Nat)
deriving DecidableEq

/-- Signal names connected to the target's ports, in the target's port
declaration order, each followed by a space. -/
def renderConns (env : List ModuleDef) (prims : Nat → List PortDecl) (genv : Nat → Nat → Nat)
    (inst : InstDecl) : String :=
  String.join ((targetPorts env prims genv inst.target).map
    (fun pt => (alookup inst.conns pt.name).getD "" ++ " "))

/-- `key='value'` pairs, space separated, in the PDK-defined key order. -/
def renderPairs (pairs : List (String × String)) : String :=
  String.join (pairs.map (fun kv => kv.1 ++ "=\x27" ++ kv.2 ++ "\x27 "))

def emitInstLines (env : List ModuleDef) (prims : Nat → List PortDecl)
    (pdk : Nat → Nat → Option (String × List (String × String))) (genv : Nat → Nat → Nat)
    (inst : InstDecl) : Except EmitErr (List String) :=
  let connLine := "+ " ++ renderConns env prims genv inst
  match inst.target with
  | .prim k pv =>
    match pdk k pv with
    | none => .error (.unsupportedDeviceVariant k pv)
    | some np =>
      .ok ["x" ++ inst.name, connLine, "+ " ++ np.1 ++ " ", "+ " ++ renderPairs np.2]
  | .mod j =>
    .ok ["x" ++ inst.name, connLine, "+ " ++ (getM env j).name ++ " ", "+ " ++ renderPairs []]
  | .gen g pv => .error (.unresolvedGenerator g pv)

def seqLines {α : Type} (f : α → Except EmitErr (List String)) : List α → Except EmitErr (List String)
  | [] => .ok []
  | x :: xs =>
    match f x with
    | .error e => .error e
    | .ok ls =>
      match seqLines f xs with
      | .error e => .error e
      | .ok ms => .ok (ls ++ ms)

/-- One subcircuit block: header, port line, instances, `.ends`. -/
def emitModuleLines (env : List ModuleDef) (prims : Nat → List PortDecl)
    (pdk : Nat → Nat → Option (String × List (String × String))) (genv : Nat → Nat → Nat)
    (m : ModuleDef) : Except EmitErr (List String) :=
  match seqLines (emitInstLines env prims pdk genv) m.instances with
  | .error e => .error e
  | .ok ls =>
    .ok ([".subckt " ++ m.name,
      "+ " ++ String.join (m.ports.map (fun pt => pt.name ++ " "))] ++ ls ++ [".ends"])

mutual

def emitOrder (env : List ModuleDef) (genv : Nat → Nat → Nat) (fuel : Nat)
    (visited : List Nat) (m : Nat) : List Nat × List Nat :=
  match fuel with
  | 0 => ([], visited)
  | fuel2 + 1 =>
    if m ∈ visited then ([], visited)
    else
      let r := emitOrderFold env genv fuel2 (succsOf env genv m) (m :: visited)
      (r.1 ++ [m], r.2)
termination_by (fuel, 0)

def emitOrderFold (env : List ModuleDef) (genv : Nat → Nat → Nat) (fuel : Nat)
    (ts : List Nat) (visited : List Nat) : List Nat × List Nat :=
  match ts with
  | [] => ([], visited)
  | t :: ts2 =>
    let r1 := emitOrder env genv fuel visited t
    let r2 := emitOrderFold env genv fuel ts2 r1.2
    (r1.1 ++ r2.1, r2.2)
termination_by (fuel, ts.length + 1)

end

/-- Modelled from the spec: `emit(module, format, pdk_mapping)`: post-order
traversal from the root, each distinct Module emitted exactly once, then
the blocks joined into the output text. -/
def emit (env : List ModuleDef) (prims : Nat → List PortDecl)
    (pdk : Nat → Nat → Option (String × List (String × String))) (genv : Nat → Nat → Nat)
    (root : Nat) : Except EmitErr String :=
  match seqLines (fun i => emitModuleLines env prims pdk genv (getM env i))
      (emitOrder env genv (env.length + 1) [] root).1 with
  | .error e => .error e
  | .ok lines => .ok (String.join (lines.map (fun l => l ++ "\n")))

theorem targetPorts_prim (env : List ModuleDef) (prims : Nat → List PortDecl)
    (genv : Nat → Nat → Nat) (k pv : Nat) :
    targetPorts env prims genv (.prim k pv) = prims k := rfl

theorem seqLines_nil {α : Type} (f : α → Except EmitErr (List String)) :
    seqLines f [] = .ok [] := rfl

theorem seqLines_cons {α : Type} (f : α → Except EmitErr (List String)) (x : α) (xs : List α) :
    seqLines f (x :: xs) =
      match f x with
      | .error e => .error e
      | .ok ls =>
        match seqLines f xs with
        | .error e => .error e
        | .ok ms => .ok (ls ++ ms) := rfl

/-- C7: a Module whose single instance is a two-port Primitive connected to
signals `a` and `b` emits, consecutively: the continuation-marker port line
exactly `"+ a b "`, then the PDK-mapped device-name line, then the
`key='value'` parameter line in the PDK-defined key order. -/
theorem emit_spice_two_port (env : List ModuleDef) (prims : Nat → List PortDecl)
    (pdk : Nat → Nat → Option (String × List (String × String))) (genv : Nat → Nat → Nat)
    (m : ModuleDef) (inst : InstDecl) (kind pv : Nat) (P N : PortDecl)
    (nm : String) (pairs : List (String × String))
    (hinsts : m.instances = [inst])
    (htgt : inst.target = .prim kind pv)
    (hports : prims kind = [P, N])
    (hPN : P.name ≠ N.name)
    (hconns : inst.conns = [(P.name, "a"), (N.name, "b")])
    (hpdk : pdk kind pv = some (nm, pairs)) :
    ∃ pre post, emitModuleLines env prims pdk genv m
      = .ok (pre ++ ["+ a b ", "+ " ++ nm ++ " ", "+ " ++ renderPairs pairs] ++ post) := by
  have hrc : renderConns env prims genv inst = "a b " := by
    unfold renderConns
    rw [htgt, targetPorts_prim, hports, hconns]
    simp only [List.map_cons, List.map_nil, alookup, if_pos rfl]
    simp only [if_true, if_neg hPN, Option.getD_some]
    rfl
  have hlines : emitInstLines env prims pdk genv inst
      = .ok ["x" ++ inst.name, "+ a b ", "+ " ++ nm ++ " ", "+ " ++ renderPairs pairs] := by
    unfold emitInstLines
    rw [htgt]
    simp only [hpdk]
    rw [hrc]
    rfl
  refine ⟨[".subckt " ++ m.name,
    "+ " ++ String.join (m.ports.map (fun pt => pt.name ++ " ")), "x" ++ inst.name],
    [".ends"], ?_⟩
  unfold emitModuleLines
  rw [hinsts, seqLines_cons, hlines, seqLines_nil]
  rfl

def prims7 : Nat → List PortDecl := fun _ => [⟨"p", 1, .NONE⟩, ⟨"n", 1, .NONE⟩]

def pdk7 : Nat → Nat → Option (String × List (String × String)) :=
  fun _ _ => some ("sky130_fd_pr__res_generic_po", [("w", "10"), ("l", "10"), ("m", "1")])

def mRes : ModuleDef :=
  ⟨"SingleRes", [⟨"a", 1, .NONE⟩, ⟨"b", 1, .NONE⟩], [],
    [⟨"genres", .prim 0 0, [("p", "a"), ("n", "b")]⟩]⟩

theorem emit_spice_two_port_witness :
    ∃ pre post, emitModuleLines [] prims7 pdk7 genvTriv mRes
      = .ok (pre ++ ["+ a b ", "+ " ++ "sky130_fd_pr__res_generic_po" ++ " ",
          "+ " ++ renderPairs [("w", "10"), ("l", "10"), ("m", "1")]] ++ post) :=
  emit_spice_two_port [] prims7 pdk7 genvTriv mRes
    ⟨"genres", .prim 0 0, [("p", "a"), ("n", "b")]⟩ 0 0
    ⟨"p", 1, .NONE⟩ ⟨"n", 1, .NONE⟩ "sky130_fd_pr__res_generic_po"
    [("w", "10"), ("l", "10"), ("m", "1")]
    rfl rfl rfl (by decide) rfl rfl

/-! ### Determinism of the emitter (claim C6)

Two structurally identical, independently built resolved graphs are
related by a renaming of module indices that preserves all content; the
emitted text is invariant under such a renaming (and trivially equal for
syntactically equal inputs, since `emit` is a pure function of its
arguments). -/

def renameTarget (π : Nat → Nat) : Target → Target
  | .mod i => .mod (π i)
  | t => t

def renameInst (π : Nat → Nat) (inst : InstDecl) : InstDecl :=
  { inst with target := renameTarget π inst.target }

def renameMod (π : Nat → Nat) (m : ModuleDef) : ModuleDef :=
  { m with instances := m.instances.map (renameInst π) }

theorem emitOrder_zero (env : List ModuleDef) (genv : Nat → Nat → Nat)
    (visited : List Nat) (m : Nat) : emitOrder env genv 0 visited m = ([], visited) := by
  rw [emitOrder]

theorem emitOrder_succ (env : List ModuleDef) (genv : Nat → Nat → Nat) (fuel : Nat)
    (visited : List Nat) (m : Nat) :
    emitOrder env genv (fuel + 1) visited m =
      if m ∈ visited then ([], visited)
      else
        ((emitOrderFold env genv fuel (succsOf env genv m) (m :: visited)).1 ++ [m],
          (emitOrderFold env genv fuel (succsOf env genv m) (m :: visited)).2) := by
  rw [emitOrder]

theorem emitOrderFold_nil (env : List ModuleDef) (genv : Nat → Nat → Nat) (fuel : Nat)
    (visited : List Nat) : emitOrderFold env genv fuel [] visited = ([], visited) := by
  rw [emitOrderFold]

theorem emitOrderFold_cons (env : List ModuleDef) (genv : Nat → Nat → Nat) (fuel : Nat)
    (t : Nat) (ts : List Nat) (visited : List Nat) :
    emitOrderFold env genv fuel (t :: ts) visited =
      ((emitOrder env genv fuel visited t).1 ++
        (emitOrderFold env genv fuel ts (emitOrder env genv fuel visited t).2).1,
        (emitOrderFold env genv fuel ts (emitOrder env genv fuel visited t).2).2) := by
  rw [emitOrderFold]

/-- Traversal order and visited set stay within the module indices. -/
theorem emitOrder_bounds (env : List ModuleDef) (genv : Nat → Nat → Nat)
    (hcl : ∀ m, m < env.length → ∀ t ∈ succsOf env genv m, t < env.length) :
    ∀ fuel,
      (∀ visited m, m < env.length → (∀ v ∈ visited, v < env.length) →
        (∀ x ∈ (emitOrder env genv fuel visited m).1, x < env.length) ∧
        (∀ v ∈ (emitOrder env genv fuel visited m).2, v < env.length)) ∧
      (∀ ts visited, (∀ t ∈ ts, t < env.length) → (∀ v ∈ visited, v < env.length) →
        (∀ x ∈ (emitOrderFold env genv fuel ts visited).1, x < env.length) ∧
        (∀ v ∈ (emitOrderFold env genv fuel ts visited).2, v < env.length)) := by
  intro fuel
  induction fuel with
  | zero =>
    constructor
    · intro visited m _ hv
      rw [emitOrder_zero]
      exact ⟨fun x hx => absurd hx (List.not_mem_nil x), hv⟩
    · intro ts
      induction ts with
      | nil =>
        intro visited _ hv
        rw [emitOrderFold_nil]
        exact ⟨fun x hx => absurd hx (List.not_mem_nil x), hv⟩
      | cons t ts2 ih =>
        intro visited ht hv
        rw [emitOrderFold_cons, emitOrder_zero]
        have := ih visited (fun y hy => ht y (List.mem_cons_of_mem t hy)) hv
        exact ⟨fun x hx => this.1 x (by simpa using hx), this.2⟩
  | succ fuel ihp =>
    have horder : ∀ visited m, m < env.length → (∀ v ∈ visited, v < env.length) →
        (∀ x ∈ (emitOrder env genv (fuel + 1) visited m).1, x < env.length) ∧
        (∀ v ∈ (emitOrder env genv (fuel + 1) visited m).2, v < env.length) := by
      intro visited m hm hv
      rw [emitOrder_succ]
      by_cases hmem : m ∈ visited
      · rw [if_pos hmem]
        exact ⟨fun x hx => absurd hx (List.not_mem_nil x), hv⟩
      · rw [if_neg hmem]
        have hf := ihp.2 (succsOf env genv m) (m :: visited) (hcl m hm)
          (fun v hv2 => by
            rcases List.mem_cons.mp hv2 with h1 | h2
            · exact h1 ▸ hm
            · exact hv v h2)
        constructor
        · intro x hx
          rcases List.mem_append.mp hx with h1 | h2
          · exact hf.1 x h1
          · rw [List.mem_singleton] at h2
            exact h2 ▸ hm
        · exact hf.2
    refine ⟨horder, ?_⟩
    intro ts
    induction ts with
    | nil =>
      intro visited _ hv
      rw [emitOrderFold_nil]
      exact ⟨fun x hx => absurd hx (List.not_mem_nil x), hv⟩
    | cons t ts2 ih =>
      intro visited ht hv
      rw [emitOrderFold_cons]
      have h1 := horder visited t (ht t (List.mem_cons_self t ts2)) hv
      have h2 := ih (emitOrder env genv (fuel + 1) visited t).2
        (fun y hy => ht y (List.mem_cons_of_mem t hy)) h1.2
      constructor
      · intro x hx
        rcases List.mem_append.mp hx with h3 | h4
        · exact h1.1 x h3
        · exact h2.1 x h4
      · exact h2.2

theorem succsOf_rename (env1 env2 : List ModuleDef) (genv : Nat → Nat → Nat) (π : Nat → Nat)
    (hmap : ∀ i, i < env1.length → getM env2 (π i) = renameMod π (getM env1 i))
    (hng : ∀ i, i < env1.length → ∀ inst ∈ (getM env1 i).instances, inst.target.isGen = false)
    (m : Nat) (hm : m < env1.length) :
    succsOf env2 genv (π m) = (succsOf env1 genv m).map π := by
  unfold succsOf
  rw [hmap m hm]
  simp only [renameMod, List.filterMap_map, List.map_filterMap]
  apply List.filterMap_congr
  intro inst hinst
  have hg := hng m hm inst hinst
  cases htgt : inst.target with
  | mod j => simp [renameInst, renameTarget, targetId, htgt]
  | prim k pv => simp [renameInst, renameTarget, targetId, htgt]
  | gen g pv =>
    rw [htgt] at hg
    exact absurd hg (by simp [Target.isGen])

theorem mem_map_pi (π : Nat → Nat) (n : Nat)
    (hinj : ∀ i, i < n → ∀ j, j < n → π i = π j → i = j)
    (visited : List Nat) (hv : ∀ v ∈ visited, v < n) (m : Nat) (hm : m < n) :
    π m ∈ visited.map π ↔ m ∈ visited := by
  constructor
  · intro h
    rcases List.mem_map.mp h with ⟨v, hv2, heq⟩
    rwa [hinj v (hv v hv2) m hm heq] at hv2
  · exact fun h => List.mem_map_of_mem π h

theorem emitOrder_rename (env1 env2 : List ModuleDef) (genv : Nat → Nat → Nat) (π : Nat → Nat)
    (hinj : ∀ i, i < env1.length → ∀ j, j < env1.length → π i = π j → i = j)
    (hmap : ∀ i, i < env1.length → getM env2 (π i) = renameMod π (getM env1 i))
    (hcl : ∀ m, m < env1.length → ∀ t ∈ succsOf env1 genv m, t < env1.length)
    (hng : ∀ i, i < env1.length → ∀ inst ∈ (getM env1 i).instances, inst.target.isGen = false) :
    ∀ fuel,
      (∀ visited m, m < env1.length → (∀ v ∈ visited, v < env1.length) →
        emitOrder env2 genv fuel (visited.map π) (π m)
          = ((emitOrder env1 genv fuel visited m).1.map π,
            (emitOrder env1 genv fuel visited m).2.map π)) ∧
      (∀ ts visited, (∀ t ∈ ts, t < env1.length) → (∀ v ∈ visited, v < env1.length) →
        emitOrderFold env2 genv fuel (ts.map π) (visited.map π)
          = ((emitOrderFold env1 genv fuel ts visited).1.map π,
            (emitOrderFold env1 genv fuel ts visited).2.map π)) := by
  intro fuel
  induction fuel with
  | zero =>
    constructor
    · intro visited m _ _
      rw [emitOrder_zero, emitOrder_zero]
      simp
    · intro ts
      induction ts with
      | nil =>
        intro visited _ _
        rw [List.map_nil, emitOrderFold_nil, emitOrderFold_nil]
        simp
      | cons t ts2 ih =>
        intro visited ht hv
        rw [List.map_cons, emitOrderFold_cons, emitOrderFold_cons, emitOrder_zero, emitOrder_zero]
        have h2 := ih visited (fun y hy => ht y (List.mem_cons_of_mem t hy)) hv
        rw [h2]
        simp
  | succ fuel ihp =>
    have horder : ∀ visited m, m < env1.length → (∀ v ∈ visited, v < env1.length) →
        emitOrder env2 genv (fuel + 1) (visited.map π) (π m)
          = ((emitOrder env1 genv (fuel + 1) visited m).1.map π,
            (emitOrder env1 genv (fuel + 1) visited m).2.map π) := by
      intro visited m hm hv
      rw [emitOrder_succ, emitOrder_succ]
      by_cases hmem : m ∈ visited
      · rw [if_pos ((mem_map_pi π env1.length hinj visited hv m hm).mpr hmem), if_pos hmem]
        simp
      · rw [if_neg (fun hc => hmem ((mem_map_pi π env1.length hinj visited hv m hm).mp hc)),
          if_neg hmem]
        have hvb : ∀ v ∈ m :: visited, v < env1.length := by
          intro v hv2
          rcases List.mem_cons.mp hv2 with h1 | h2
          · exact h1 ▸ hm
          · exact hv v h2
        have hfold := ihp.2 (succsOf env1 genv m) (m :: visited) (hcl m hm) hvb
        rw [succsOf_rename env1 env2 genv π hmap hng m hm]
        rw [show (π m :: visited.map π) = (m :: visited).map π from (List.map_cons π m visited).symm]
        rw [hfold]
        simp
    refine ⟨horder, ?_⟩
    intro ts
    induction ts with
    | nil =>
      intro visited _ _
      rw [List.map_nil, emitOrderFold_nil, emitOrderFold_nil]
      simp
    | cons t ts2 ih =>
      intro visited ht hv
      rw [List.map_cons, emitOrderFold_cons, emitOrderFold_cons]
      have h1 := horder visited t (ht t (List.mem_cons_self t ts2)) hv
      rw [h1]
      have hb := ((emitOrder_bounds env1 genv hcl (fuel + 1)).1 visited t
        (ht t (List.mem_cons_self t ts2)) hv).2
      have h2 := ih (emitOrder env1 genv (fuel + 1) visited t).2
        (fun y hy => ht y (List.mem_cons_of_mem t hy)) hb
      rw [h2]
      simp

theorem target_mod_lt (env : List ModuleDef) (genv : Nat → Nat → Nat)
    (hcl : ∀ m, m < env.length → ∀ t ∈ succsOf env genv m, t < env.length)
    (i : Nat) (hi : i < env.length) (inst : InstDecl) (hinst : inst ∈ (getM env i).instances)
    (j : Nat) (htgt : inst.target = .mod j) : j < env.length := by
  apply hcl i hi
  unfold succsOf
  exact List.mem_filterMap.mpr ⟨inst, hinst, by rw [htgt]; rfl⟩

theorem emitInstLines_rename (env1 env2 : List ModuleDef) (prims : Nat → List PortDecl)
    (pdk : Nat → Nat → Option (String × List (String × String))) (genv : Nat → Nat → Nat)
    (π : Nat → Nat)
    (hmap : ∀ i, i < env1.length → getM env2 (π i) = renameMod π (getM env1 i))
    (inst : InstDecl) (hj : ∀ j, inst.target = .mod j → j < env1.length) :
    emitInstLines env2 prims pdk genv (renameInst π inst)
      = emitInstLines env1 prims pdk genv inst := by
  unfold emitInstLines renderConns renameInst
  cases htgt : inst.target with
  | mod j =>
    simp only [renameTarget, targetPorts]
    rw [hmap j (hj j htgt)]
    rfl
  | prim k pv =>
    simp only [renameTarget, targetPorts]
  | gen g pv =>
    simp only [renameTarget]

theorem seqLines_map_congr {α β : Type} (f : β → Except EmitErr (List String)) (g : α → β)
    (f2 : α → Except EmitErr (List String)) :
    ∀ l, (∀ x ∈ l, f (g x) = f2 x) → seqLines f (l.map g) = seqLines f2 l := by
  intro l
  induction l with
  | nil => intro _; rfl
  | cons x xs ih =>
    intro h
    rw [List.map_cons, seqLines_cons, seqLines_cons, h x (List.mem_cons_self x xs),
      ih (fun y hy => h y (List.mem_cons_of_mem x hy))]

theorem emitModuleLines_rename (env1 env2 : List ModuleDef) (prims : Nat → List PortDecl)
    (pdk : Nat → Nat → Option (String × List (String × String))) (genv : Nat → Nat → Nat)
    (π : Nat → Nat)
    (hmap : ∀ i, i < env1.length → getM env2 (π i) = renameMod π (getM env1 i))
    (hcl : ∀ m, m < env1.length → ∀ t ∈ succsOf env1 genv m, t < env1.length)
    (i : Nat) (hi : i < env1.length) :
    emitModuleLines env2 prims pdk genv (getM env2 (π i))
      = emitModuleLines env1 prims pdk genv (getM env1 i) := by
  rw [hmap i hi]
  unfold emitModuleLines
  have hseq : seqLines (emitInstLines env2 prims pdk genv)
      ((getM env1 i).instances.map (renameInst π))
      = seqLines (emitInstLines env1 prims pdk genv) (getM env1 i).instances := by
    apply seqLines_map_congr
    intro inst hinst
    exact emitInstLines_rename env1 env2 prims pdk genv π hmap inst
      (fun j htgt => target_mod_lt env1 genv hcl i hi inst hinst j htgt)
  simp only [renameMod]
  rw [hseq]

/-- C6: the emitted text is a pure function of the resolved graph's
structure: renaming the module indices of a resolved design (no
GeneratorCall targets) by any injection that preserves module contents —
i.e., rebuilding the same graph independently — yields byte-identical
output; two runs on syntactically equal input are equal by reflexivity. -/
theorem emit_deterministic (env1 env2 : List ModuleDef) (prims : Nat → List PortDecl)
    (pdk : Nat → Nat → Option (String × List (String × String))) (genv : Nat → Nat → Nat)
    (π : Nat → Nat) (root : Nat)
    (hlen : env2.length = env1.length)
    (hinj : ∀ i, i < env1.length → ∀ j, j < env1.length → π i = π j → i = j)
    (hmap : ∀ i, i < env1.length → getM env2 (π i) = renameMod π (getM env1 i))
    (hcl : ∀ m, m < env1.length → ∀ t ∈ succsOf env1 genv m, t < env1.length)
    (hng : ∀ i, i < env1.length → ∀ inst ∈ (getM env1 i).instances, inst.target.isGen = false)
    (hroot : root < env1.length) :
    emit env2 prims pdk genv (π root) = emit env1 prims pdk genv root := by
  unfold emit
  have hord := (emitOrder_rename env1 env2 genv π hinj hmap hcl hng (env1.length + 1)).1
    [] root hroot (fun v hv => absurd hv (List.not_mem_nil v))
  rw [List.map_nil] at hord
  rw [hlen, hord]
  have hbnd := ((emitOrder_bounds env1 genv hcl (env1.length + 1)).1 [] root hroot
    (fun v hv => absurd hv (List.not_mem_nil v))).1
  have hseq := seqLines_map_congr
    (fun i => emitModuleLines env2 prims pdk genv (getM env2 i)) π
    (fun i => emitModuleLines env1 prims pdk genv (getM env1 i))
    (emitOrder env1 genv (env1.length + 1) [] root).1
    (fun i hi => emitModuleLines_rename env1 env2 prims pdk genv π hmap hcl i (hbnd i hi))
  rw [hseq]

/-- Independently built copy of the resolved two-module design, with the
module list in the opposite order. -/
def envDet1 : List ModuleDef :=
  [⟨"Leaf", [], [], []⟩, ⟨"Top", [], [], [⟨"u", .mod 0, []⟩]⟩]

def envDet2 : List ModuleDef :=
  [⟨"Top", [], [], [⟨"u", .mod 1, []⟩]⟩, ⟨"Leaf", [], [], []⟩]

def piDet : Nat → Nat := fun i => if i = 0 then 1 else if i = 1 then 0 else i

theorem emit_deterministic_witness :
    emit envDet2 prims7 pdk7 genvTriv (piDet 1) = emit envDet1 prims7 pdk7 genvTriv 1 :=
  emit_deterministic envDet1 envDet2 prims7 pdk7 genvTriv piDet 1 rfl
    (by decide) (by decide) (by decide) (by decide) (by decide)

/-! ### The series/parallel generator (claim C8) -/

def spInstName (row col : Nat) : String :=
  "unit_" ++ toString row ++ "_" ++ toString col

def spSigName (row col : Nat) (outName : String) : String :=
  spInstName row col ++ "_" ++ outName

/-- Connections of the unit at `(row, col)`: the series input comes from
the previous stage's internal signal (or the outer input port at the head
of the chain), the series output drives this stage's internal signal (or
the outer output port at the tail), and every other port is tied to the
like-named outer port. -/
def spConns (unit : ModuleDef) (nser : Nat) (inName outName : String) (row col : Nat) :
    List (String × String) :=
  unit.ports.map (fun pt =>
    if pt.name = inName then
      (pt.name, if col = 0 then inName else spSigName row (col - 1) outName)
    else if pt.name = outName then
      (pt.name, if col = nser - 1 then outName else spSigName row col outName)
    else (pt.name, pt.name))

/-- Modelled from the spec: the build function of the general-purpose
series/parallel generator `hdl21.generators.SeriesPar` (absent from src/;
spec section 8 scenario B and `test_builtin_generators.py`): the unit's
ports, `npar × nser` instances named by the stable `unit_<row>_<col>`
scheme in row-major declaration order, and one new internal signal per
series pair, named after the driving instance and the series output
port. -/
def seriesParBuild (unit : ModuleDef) (unitTarget : Target) (npar nser : Nat)
    (series_conns : List String) : ModuleDef :=
  let inName := series_conns.getD 0 ""
  let outName := series_conns.getD 1 ""
  let outWidth := ((unit.ports.find? (fun pt => pt.name == outName)).map
    (fun pt => pt.width)).getD 1
  ⟨"SeriesPar", unit.ports,
    (List.range npar).flatMap (fun row =>
      (List.range (nser - 1)).map (fun col => (spSigName row col outName, outWidth))),
    (List.range npar).flatMap (fun row =>
      (List.range nser).map (fun col =>
        ⟨spInstName row col, unitTarget, spConns unit nser inName outName row col⟩))⟩

/-- The 7-port unit cell of `test_series_parallel_generator`. -/
def unit7 : ModuleDef :=
  ⟨"M", [⟨"a", 1, .NONE⟩, ⟨"b", 1, .NONE⟩, ⟨"c", 1, .NONE⟩, ⟨"d", 1, .NONE⟩,
    ⟨"e", 1, .NONE⟩, ⟨"f", 1, .NONE⟩, ⟨"g", 1, .NONE⟩], [], []⟩

def spResult : ModuleDef := seriesParBuild unit7 (.mod 0) 2 2 ["a", "b"]

def envSP : List ModuleDef := [unit7, spResult]

def genvSP : Nat → Nat → Nat := fun _ _ => 1

/-- C8: elaborating the series/parallel generator call on the 7-port unit
with `npar = 2`, `nser = 2`, `series_conns = ["a", "b"]` succeeds and
returns a Module with the unit's 7 ports, exactly the 4 instances
`unit_0_0, unit_0_1, unit_1_0, unit_1_1`, and exactly the 2 new internal
signals `unit_0_0_b` and `unit_1_0_b` connecting the series pairs. -/
theorem seriesPar_scenario :
    elaborate envSP genvSP (.gen 0 0) = .ok (envSP.map (elabModuleDef genvSP), 1) ∧
    (getM (envSP.map (elabModuleDef genvSP)) 1).ports = unit7.ports ∧
    (getM (envSP.map (elabModuleDef genvSP)) 1).ports.length = 7 ∧
    ((getM (envSP.map (elabModuleDef genvSP)) 1).instances.map (fun i => i.name))
      = ["unit_0_0", "unit_0_1", "unit_1_0", "unit_1_1"] ∧
    ((getM (envSP.map (elabModuleDef genvSP)) 1).signals.map (fun sg => sg.1))
      = ["unit_0_0_b", "unit_1_0_b"] ∧
    (getM (envSP.map (elabModuleDef genvSP)) 1).signals.length = 2 :=
  ⟨rfl, by decide⟩

end AutoCkt
